import Mathlib

/-!
Shallow embedding of `src/src/utils/tokenizer.ts` (class `CustomTokenizer`).

Modelling conventions:
* A JS `Record` (object used as a dictionary of own properties) and a JS
  `Map` are both modelled as insertion-ordered association lists with
  unique keys; `jsSet` is property assignment / `Map.set` (update an
  existing key in place, otherwise append), `List.lookup` is property
  read / `Map.get`, `(· .lookup ·).isSome` is the `in` operator /
  `Map.has`.  Iterating such an object (`Object.entries`, `for..of`)
  iterates the list in order, matching JS insertion order for the
  string keys that occur here.
* Strings are Lean `String`s, manipulated through their character
  lists; `lowerStr` models `String.prototype.toLowerCase` on the ASCII
  range (the only range the specification's claims exercise),
  `isJsWhitespace` is the character class `\s` of JS regular
  expressions, and `trimJs` / `trimEndJs` are `trim` / `trimEnd`.
* The regex pipeline of `splitTextTokens` (surround each punctuation
  mark with spaces, collapse `\s+`, trim, split on `" "`, drop empty
  strings) is modelled by inserting the same spaces (`expandPunct`)
  and then taking the maximal runs of non-whitespace characters
  (`splitRuns` + drop empties), which is the same function.
* `throw` in `encode` is modelled by `Except String`; `decode` never
  throws and is a plain function.  An absent id in `decode` produces
  the JS value `undefined`, modelled as `Option.none`, which string
  concatenation coerces to the literal text `"undefined"`
  (`tokenAsStr`).
-/

abbrev Vocab := List (String × Nat)
abbrev ReverseVocab := List (Nat × String)

/-- Property assignment on a JS object (or `Map.set`): update an existing
key in place, otherwise append the new binding at the end. -/
def jsSet {α β : Type} [BEq α] (l : List (α × β)) (k : α) (v : β) : List (α × β) :=
  if (l.lookup k).isSome then l.map (fun p => if p.1 == k then (p.1, v) else p)
  else l ++ [(k, v)]

/-- Options bag of the `CustomTokenizer` constructor (`TokenizerOptions`);
every field is optional in the source. -/
structure TokenizerOptions where
  specialTokens : Option (List String)
  caseSensitive : Option Bool
  maxVocabSize : Option Nat

/-- Default special-token list used when the option is absent. -/
def defaultSpecialTokens : List String := ["<PAD>", "<UNK>", "<CLS>", "<SEP>"]

/-- State of a `CustomTokenizer` instance: the two maps plus the three
configuration fields fixed at construction. -/
structure CustomTokenizer where
  vocab : Vocab
  reverseVocab : ReverseVocab
  specialTokens : List String
  caseSensitive : Bool
  maxVocabSize : Option Nat

/-- Getter `vocabSize` (`Object.keys(this.vocab).length`; the modelled
vocab keeps one entry per key). -/
def CustomTokenizer.vocabSize (t : CustomTokenizer) : Nat := t.vocab.length

/-- Method `buildReverseVocabFromVocab` as a pure map: iterate the vocab
entries in order and assign `reverseVocab[id] = token`. -/
def mkReverse (v : Vocab) : ReverseVocab :=
  v.foldl (fun r p => jsSet r p.2 p.1) []

/-- Method `buildReverseVocabFromVocab` applied to the instance state. -/
def buildReverseVocabFromVocab (t : CustomTokenizer) : CustomTokenizer :=
  { t with reverseVocab := mkReverse t.vocab }

/-- The `forEach` loop of `initializeSpecialTokens`: assign
`vocab[token] = index` for each token with its index. -/
def setAll : Vocab → Nat → List String → Vocab
  | v, _, [] => v
  | v, i, s :: ss => setAll (jsSet v s i) (i + 1) ss

/-- Method `initializeSpecialTokens`: reset the vocab to the special
tokens at their indices and rebuild the reverse vocab. -/
def initSpecialTokens (t : CustomTokenizer) : CustomTokenizer :=
  buildReverseVocabFromVocab { t with vocab := setAll [] 0 t.specialTokens }

/-- Constructor `new CustomTokenizer(options)`: fill in the defaults and
initialize the special tokens. -/
def CustomTokenizer.new (opts : TokenizerOptions) : CustomTokenizer :=
  initSpecialTokens
    { vocab := []
      reverseVocab := []
      specialTokens := opts.specialTokens.getD defaultSpecialTokens
      caseSensitive := opts.caseSensitive.getD false
      maxVocabSize := opts.maxVocabSize }

/-- Character class of the first replacement regex of `splitTextTokens`:
the marks `. ! ? ; : ( ) ' " – —` (39 and 34 are the apostrophe and the
double quote, 8211 and 8212 the en and em dash). -/
def isSplitPunct (c : Char) : Bool :=
  c ∈ ['.', '!', '?', ';', ':', '(', ')', Char.ofNat 39, Char.ofNat 34,
       Char.ofNat 0x2013, Char.ofNat 0x2014]

/-- Character class `\s` of JS regular expressions. -/
def isJsWhitespace (c : Char) : Bool :=
  c = ' ' || c = '\t' || c = '\n' || c = '\r' ||
  c = Char.ofNat 11 || c = Char.ofNat 12 || c = Char.ofNat 0xa0 ||
  c = Char.ofNat 0x1680 || (0x2000 ≤ c.toNat && c.toNat ≤ 0x200a) ||
  c = Char.ofNat 0x2028 || c = Char.ofNat 0x2029 || c = Char.ofNat 0x202f ||
  c = Char.ofNat 0x205f || c = Char.ofNat 0x3000 || c = Char.ofNat 0xfeff

/-- Replacement `" $1 "` for every split punctuation mark and for the
comma (the source applies two regexes with identical effect). -/
def expandPunct : List Char → List Char
  | [] => []
  | c :: cs =>
    if isSplitPunct c || c = ',' then ' ' :: c :: ' ' :: expandPunct cs
    else c :: expandPunct cs

/-- Split a character list at the characters satisfying `p`, keeping the
(possibly empty) runs between them. -/
def splitRuns (p : Char → Bool) : List Char → List (List Char)
  | [] => [[]]
  | c :: cs =>
    match splitRuns p cs with
    | [] => [[]]
    | g :: gs => if p c then [] :: g :: gs else (c :: g) :: gs

/-- ASCII lower-casing, modelling `toLowerCase` on the range the claims
exercise. -/
def lowerStr (s : String) : String := String.mk (s.data.map Char.toLower)

/-- Method `splitTextTokens`: case-fold unless case sensitive, surround
punctuation with spaces, then take the maximal whitespace-free runs. -/
def splitTextTokens (t : CustomTokenizer) (text : String) : List String :=
  let processed := if t.caseSensitive then text else lowerStr text
  ((splitRuns isJsWhitespace (expandPunct processed.data)).filter
      (fun g => ¬ g = [])).map (fun g => String.mk g)

/-- Truthiness test `this.maxVocabSize && this.vocabSize >= this.maxVocabSize`
(an absent option and the number `0` are both falsy). -/
def capReached (t : CustomTokenizer) : Bool :=
  match t.maxVocabSize with
  | none => false
  | some m => if m = 0 then false else decide (m ≤ t.vocabSize)

/-- Loop body shared by both build methods: skip a token already present,
otherwise assign it the next id (`this.vocab[token] = this.vocabSize`). -/
def addTok (t : CustomTokenizer) (tok : String) : CustomTokenizer :=
  if (t.vocab.lookup tok).isSome then t
  else { t with vocab := jsSet t.vocab tok t.vocabSize }

/-- The `for..of` loop of both build methods: before each token, break
out when the size cap is reached. -/
def addCapped : CustomTokenizer → List String → CustomTokenizer
  | t, [] => t
  | t, tok :: rest => if capReached t then t else addCapped (addTok t tok) rest

/-- Insertion-order deduplication with an accumulator of already seen
tokens, modelling how a `Set` collects and then iterates its elements. -/
def dedupFirstAux : List String → List String → List String
  | [], _ => []
  | x :: xs, seen =>
    if seen.contains x then dedupFirstAux xs seen
    else x :: dedupFirstAux xs (x :: seen)

/-- Insertion-order deduplication, modelling iteration over
`new Set(tokens)`. -/
def dedupFirst (l : List String) : List String := dedupFirstAux l []

/-- Method `buildVocabFromInputText`. -/
def buildVocabFromInputText (t : CustomTokenizer) (text : String) : CustomTokenizer :=
  let t1 := initSpecialTokens t
  let tokens := splitTextTokens t1 text
  let uniqueTokens := dedupFirst tokens
  buildReverseVocabFromVocab (addCapped t1 uniqueTokens)

/-- Count one token:
`tokenCounts.set(token, (tokenCounts.get(token) || 0) + 1)` (`0` is the
`|| 0` fallback for an absent key). -/
def bumpCount (m : List (String × Nat)) (tok : String) : List (String × Nat) :=
  jsSet m tok ((m.lookup tok).getD 0 + 1)

/-- Counting loops of `buildVocabFromCorpus`: every token of every text,
in order, into an insertion-ordered map. -/
def corpusCounts (t : CustomTokenizer) (texts : List String) : List (String × Nat) :=
  texts.foldl (fun m text => (splitTextTokens t text).foldl bumpCount m) []

/-- Stable descending insertion of one counted token, the building block
of the stable sort below. -/
def insertDescFreq (x : String × Nat) : List (String × Nat) → List (String × Nat)
  | [] => [x]
  | y :: ys => if y.2 ≤ x.2 then x :: y :: ys else y :: insertDescFreq x ys

/-- Stable sort by frequency descending, modelling
`.sort(([, freqA], [, freqB]) => freqB - freqA)` (a stable sort in JS);
any two stable sorts for the same comparator produce the same list. -/
def sortDescFreq : List (String × Nat) → List (String × Nat)
  | [] => []
  | x :: xs => insertDescFreq x (sortDescFreq xs)

/-- Method `buildVocabFromCorpus`. -/
def buildVocabFromCorpus (t : CustomTokenizer) (texts : List String) : CustomTokenizer :=
  let t1 := initSpecialTokens t
  let sortedTokens := (sortDescFreq (corpusCounts t1 texts)).map Prod.fst
  buildReverseVocabFromVocab (addCapped t1 sortedTokens)

/-- Callback of the `map` inside `encode`, sequenced so that the first
token that is absent while `"<UNK>"` is also absent throws. -/
def mapTokenIds (t : CustomTokenizer) : List String → Except String (List Nat)
  | [] => .ok []
  | tok :: rest =>
    match t.vocab.lookup tok with
    | some i => (mapTokenIds t rest).map (fun is => i :: is)
    | none =>
      match t.vocab.lookup "<UNK>" with
      | some u => (mapTokenIds t rest).map (fun is => u :: is)
      | none => .error "UNK token not found in vocabulary"

/-- Method `encode`: map the split tokens to ids (falling back to the id
of the literal key `"<UNK>"`), then wrap with the ids of the literal
keys `"<CLS>"` and `"<SEP>"`. -/
def encode (t : CustomTokenizer) (text : String) : Except String (List Nat) := do
  let tokens := splitTextTokens t text
  let tokenIds ← mapTokenIds t tokens
  match t.vocab.lookup "<CLS>", t.vocab.lookup "<SEP>" with
  | some clsId, some sepId => .ok (clsId :: tokenIds ++ [sepId])
  | _, _ => .error "Required special tokens (CLS, SEP) not found in vocabulary"

/-- Coercion applied by string concatenation and by `RegExp.test` to the
JS value `undefined` held for an id that is absent from the reverse
vocab. -/
def tokenAsStr : Option String → String
  | some s => s
  | none => "undefined"

/-- Character class of the decode-side punctuation regex, which adds the
comma, the backtick (96) and the hyphen to the split set. -/
def isDecodePunct (c : Char) : Bool :=
  c ∈ ['.', ',', '!', '?', ';', ':', '(', ')', Char.ofNat 39, Char.ofNat 34,
       Char.ofNat 96, Char.ofNat 0x2013, Char.ofNat 0x2014, '-']

/-- Test of the anchored decode-side punctuation regex on a token: a
single character drawn from the decode punctuation set. -/
def isPunctToken (s : String) : Bool :=
  match s.data with
  | [c] => isDecodePunct c
  | _ => false

/-- Characters that the tokenizer treats as plain word material: not
whitespace and not punctuation of either the split or the decode set.
Used to state the round-trip property. -/
def plainChar (c : Char) : Bool :=
  !(isJsWhitespace c) && !(isSplitPunct c) && !(c == ',') && !(isDecodePunct c)

/-- Model of `String.prototype.trimEnd` (drops trailing `\s`). -/
def trimEndJs (s : String) : String :=
  String.mk ((s.data.reverse.dropWhile isJsWhitespace).reverse)

/-- Model of `String.prototype.trim`. -/
def trimJs (s : String) : String :=
  String.mk (((s.data.dropWhile isJsWhitespace).reverse.dropWhile
      isJsWhitespace).reverse)

/-- Reconstruction loop of `decode`: glue a punctuation token onto the
text (dropping the trailing space first), give every token a following
space unless it is the last one. -/
def mergeLoop : String → List (Option String) → String
  | res, [] => res
  | res, tok :: rest =>
    let s := tokenAsStr tok
    let r := if isPunctToken s then trimEndJs res ++ s else res ++ s
    mergeLoop (if rest.isEmpty then r else r ++ " ") rest

/-- Method `decode`: look every id up in the reverse vocab, drop the
tokens that equal a configured special token (`undefined` never does),
then run the reconstruction loop and trim. -/
def decode (t : CustomTokenizer) (ids : List Nat) : String :=
  let decodedTokens := ids.map (fun i => t.reverseVocab.lookup i)
  let filteredTokens := decodedTokens.filter
    (fun o => match o with
      | some tok => ¬ t.specialTokens.contains tok
      | none => true)
  trimJs (mergeLoop "" filteredTokens)

/-- Shape of the value produced by `toJSON` and consumed by `fromJSON`. -/
structure TokenizerJSON where
  vocab : Vocab
  specialTokens : List String
  caseSensitive : Bool

/-- Method `toJSON`. -/
def toJSON (t : CustomTokenizer) : TokenizerJSON :=
  { vocab := t.vocab
    specialTokens := t.specialTokens
    caseSensitive := t.caseSensitive }

/-- Static method `fromJSON`: construct with the stored special tokens
and case flag (no `maxVocabSize` in the options bag), then overwrite the
vocab wholesale and rebuild the reverse vocab. -/
def fromJSON (d : TokenizerJSON) : CustomTokenizer :=
  let t := CustomTokenizer.new
    { specialTokens := some d.specialTokens
      caseSensitive := some d.caseSensitive
      maxVocabSize := none }
  buildReverseVocabFromVocab { t with vocab := d.vocab }

/-- A vocabulary-building call, for stating invariants that hold after
every sequence of build operations. -/
inductive BuildOp where
  | fromText (text : String)
  | fromCorpus (texts : List String)

/-- Apply one build operation to a tokenizer. -/
def applyOp (t : CustomTokenizer) : BuildOp → CustomTokenizer
  | .fromText s => buildVocabFromInputText t s
  | .fromCorpus ts => buildVocabFromCorpus t ts

/-- Apply a sequence of build operations in order. -/
def applyOps (t : CustomTokenizer) (ops : List BuildOp) : CustomTokenizer :=
  ops.foldl applyOp t

/-- Association list assigning consecutive ids starting at `n` to a list
of tokens, the normal form of every vocabulary the tokenizer builds. -/
def withIds : Nat → List String → Vocab
  | _, [] => []
  | n, s :: ss => (s, n) :: withIds (n + 1) ss

/-- Position of the first occurrence of a token in a token stream, used
to state first-seen tie-breaking. -/
def firstIdx : List String → String → Nat
  | [], _ => 0
  | x :: xs, s => if x = s then 0 else firstIdx xs s + 1

/-- Token stream of a corpus in processing order (every text split, in
order), the stream over which `buildVocabFromCorpus` counts. -/
def corpusStream (t : CustomTokenizer) (texts : List String) : List String :=
  (texts.map (splitTextTokens t)).flatten

/-- Options bag with every option left out (all defaults apply). -/
def defaultOpts : TokenizerOptions :=
  { specialTokens := none, caseSensitive := none, maxVocabSize := none }

/-- Descending-count ordering on counted entries together with a
tie-break relation `S` for entries of equal count: the pairwise guarantee
a stable sort by frequency descending provides. -/
def descTie (S : (String × Nat) → (String × Nat) → Prop)
    (p q : String × Nat) : Prop :=
  q.2 ≤ p.2 ∧ (p.2 = q.2 → S p q)

/-- Frequency ordering of two tokens relative to a token stream: the
first token occurs at least as often as the second, and on equal counts
the first token's first occurrence comes earlier. -/
def freqOrder (stream : List String) (u w : String) : Prop :=
  stream.count w ≤ stream.count u ∧
    (stream.count u = stream.count w →
      firstIdx stream u < firstIdx stream w)

/-- Specification-side reading of the decode contract, for comparison
with `decode`: in one pass, an id present in the reverse vocabulary
contributes its token unless that token equals a configured special
token (then it is dropped), and an absent id always contributes the
literal word `"undefined"`. -/
def decodeSpecTokens (t : CustomTokenizer) (ids : List Nat) : List (Option String) :=
  ids.foldr
    (fun i acc =>
      match t.reverseVocab.lookup i with
      | some tok => if t.specialTokens.contains tok then acc else some tok :: acc
      | none => some "undefined" :: acc)
    []

/-- Join words with single spaces: the whitespace-normalized form of a
text whose words are known. -/
def joinWords : List String → String
  | [] => ""
  | [w] => w
  | w :: ws => w ++ " " ++ joinWords ws

/-- Exact bijective correspondence between a vocabulary and a reverse
vocabulary: unique keys on both sides, every vocab entry inverted by the
reverse map, and every reverse entry arising from a vocab entry. -/
def BijCorrespond (v : Vocab) (r : ReverseVocab) : Prop :=
  (v.map Prod.fst).Nodup ∧ (r.map Prod.fst).Nodup ∧
  (∀ p ∈ v, r.lookup p.2 = some p.1) ∧
  (∀ q ∈ r, v.lookup q.2 = some q.1)

/-- Normal form of every reachable tokenizer state: the vocabulary lists
the special tokens first and then some added tokens, all distinct, with
consecutive ids from 0. -/
def SpecPrefix (t : CustomTokenizer) : Prop :=
  ∃ added, (t.specialTokens ++ added).Nodup ∧
    t.vocab = withIds 0 (t.specialTokens ++ added)

/-- Sample tokenizer used by witnesses: default options, vocabulary
built from a small text. -/
def sampleTokenizer : CustomTokenizer :=
  buildVocabFromInputText (CustomTokenizer.new defaultOpts) "hello world"

/-- Sample tokenizer with a configured size cap, used by witnesses. -/
def sampleCapped : CustomTokenizer :=
  buildVocabFromInputText
    (CustomTokenizer.new
      { specialTokens := none, caseSensitive := none, maxVocabSize := some 10 })
    "hello world"

/-! ## Association-list lemmas -/

theorem lookup_append {α β : Type} [BEq α] (l1 l2 : List (α × β)) (k : α) :
    (l1 ++ l2).lookup k = ((l1.lookup k).orElse (fun _ => l2.lookup k)) := by
  induction l1 with
  | nil => simp [List.lookup]
  | cons p l ih =>
    simp only [List.cons_append, List.lookup]
    cases h : k == p.1 <;> simp [ih, Option.orElse]

theorem lookup_singleton {α β : Type} [BEq α] (a k : α) (b : β) :
    ([(a, b)] : List (α × β)).lookup k = if (k == a) = true then some b else none := by
  cases hk : k == a <;> simp [List.lookup, hk]

theorem mem_of_lookup {α β : Type} [BEq α] [LawfulBEq α] (l : List (α × β)) (k : α) (v : β)
    (h : l.lookup k = some v) : (k, v) ∈ l := by
  induction l with
  | nil => simp [List.lookup] at h
  | cons p l ih =>
    obtain ⟨a, b⟩ := p
    simp only [List.lookup] at h
    cases hk : k == a with
    | true =>
      rw [hk] at h
      cases h
      have he : k = a := eq_of_beq hk
      subst he
      exact List.mem_cons_self _ _
    | false =>
      rw [hk] at h
      exact List.mem_cons_of_mem _ (ih h)

theorem lookup_isSome_of_mem_keys {α β : Type} [BEq α] [LawfulBEq α]
    (l : List (α × β)) (k : α) (h : k ∈ l.map Prod.fst) : (l.lookup k).isSome := by
  induction l with
  | nil => simp at h
  | cons p l ih =>
    obtain ⟨a, b⟩ := p
    simp only [List.map_cons, List.mem_cons] at h
    simp only [List.lookup]
    cases hk : k == a with
    | true => simp
    | false =>
      rcases h with h | h
      · rw [h] at hk
        simp at hk
      · exact ih h

theorem mem_keys_of_lookup_isSome {α β : Type} [BEq α] [LawfulBEq α]
    (l : List (α × β)) (k : α) (h : (l.lookup k).isSome) : k ∈ l.map Prod.fst := by
  cases hv : l.lookup k with
  | none => rw [hv] at h; simp at h
  | some v =>
    have := mem_of_lookup l k v hv
    exact List.mem_map.mpr ⟨(k, v), this, rfl⟩

theorem lookup_eq_none_iff {α β : Type} [BEq α] [LawfulBEq α]
    (l : List (α × β)) (k : α) : l.lookup k = none ↔ k ∉ l.map Prod.fst := by
  constructor
  · intro h hk
    have := lookup_isSome_of_mem_keys l k hk
    rw [h] at this
    simp at this
  · intro h
    cases hv : l.lookup k with
    | none => rfl
    | some v => exact absurd (mem_keys_of_lookup_isSome l k (by simp [hv])) h

theorem lookup_of_mem_nodup {α β : Type} [BEq α] [LawfulBEq α]
    (l : List (α × β)) (k : α) (v : β) (hn : (l.map Prod.fst).Nodup)
    (h : (k, v) ∈ l) : l.lookup k = some v := by
  induction l with
  | nil => simp at h
  | cons p l ih =>
    simp only [List.map_cons, List.nodup_cons] at hn
    rcases List.mem_cons.mp h with h | h
    · subst h; simp [List.lookup]
    · have hne : ¬ k = p.1 := by
        intro he
        exact hn.1 (he ▸ List.mem_map.mpr ⟨(k, v), h, rfl⟩)
      simp only [List.lookup, beq_false_of_ne hne]
      exact ih hn.2 h

theorem jsSet_fresh {α β : Type} [BEq α] (l : List (α × β)) (k : α) (v : β)
    (h : l.lookup k = none) : jsSet l k v = l ++ [(k, v)] := by
  simp [jsSet, h]

/-! ## Lemmas about `withIds` -/

theorem withIds_length (n : Nat) (l : List String) : (withIds n l).length = l.length := by
  induction l generalizing n with
  | nil => rfl
  | cons s ss ih => simp [withIds, ih]

theorem withIds_append (n : Nat) (a b : List String) :
    withIds n (a ++ b) = withIds n a ++ withIds (n + a.length) b := by
  induction a generalizing n with
  | nil => simp [withIds]
  | cons s ss ih =>
    show (s, n) :: withIds (n + 1) (ss ++ b) =
      ((s, n) :: withIds (n + 1) ss) ++ withIds (n + (ss.length + 1)) b
    rw [ih (n + 1), List.cons_append]
    have he : n + 1 + ss.length = n + (ss.length + 1) := by omega
    rw [he]

theorem withIds_map_fst (n : Nat) (l : List String) :
    (withIds n l).map Prod.fst = l := by
  induction l generalizing n with
  | nil => rfl
  | cons s ss ih => simp [withIds, ih]

theorem withIds_snd_ge (n : Nat) (l : List String) :
    ∀ p ∈ withIds n l, n ≤ p.2 := by
  induction l generalizing n with
  | nil => intro p h; simp [withIds] at h
  | cons s ss ih =>
    intro p h
    rcases List.mem_cons.mp h with h | h
    · subst h; exact Nat.le_refl n
    · exact Nat.le_of_succ_le (ih (n + 1) p h)

theorem withIds_snd_nodup (n : Nat) (l : List String) :
    ((withIds n l).map Prod.snd).Nodup := by
  induction l generalizing n with
  | nil => simp [withIds]
  | cons s ss ih =>
    simp only [withIds, List.map_cons, List.nodup_cons]
    refine ⟨?_, ih (n + 1)⟩
    intro h
    rcases List.mem_map.mp h with ⟨p, hp, he⟩
    have := withIds_snd_ge (n + 1) ss p hp
    omega

theorem lookup_withIds_of_not_mem (n : Nat) (l : List String) (s : String)
    (h : s ∉ l) : (withIds n l).lookup s = none := by
  rw [lookup_eq_none_iff, withIds_map_fst]
  exact h

theorem lookup_withIds_mem (n : Nat) (l : List String) (s : String)
    (h : s ∈ l) : ((withIds n l).lookup s).isSome := by
  apply lookup_isSome_of_mem_keys
  rw [withIds_map_fst]
  exact h

theorem lookup_withIds_get (n : Nat) (l : List String) (hn : l.Nodup)
    (i : Nat) (hi : i < l.length) :
    (withIds n l).lookup (l.get ⟨i, hi⟩) = some (n + i) := by
  induction l generalizing n i with
  | nil => simp at hi
  | cons s ss ih =>
    rcases List.nodup_cons.mp hn with ⟨hs, hss⟩
    cases i with
    | zero => simp [withIds, List.lookup]
    | succ j =>
      have hj : j < ss.length := Nat.lt_of_succ_lt_succ hi
      have hne : ¬ ss.get ⟨j, hj⟩ = s := by
        intro he
        exact hs (he ▸ List.get_mem ss j hj)
      simp only [withIds, List.get_cons_succ, List.lookup, beq_false_of_ne hne]
      rw [ih (n + 1) hss j hj]
      congr 1
      omega

theorem lookup_withIds_eq_some (n : Nat) (l : List String) (s : String) (j : Nat)
    (h : (withIds n l).lookup s = some j) :
    ∃ i, ∃ hi : i < l.length, l.get ⟨i, hi⟩ = s ∧ j = n + i := by
  induction l generalizing n with
  | nil => simp [withIds, List.lookup] at h
  | cons x xs ih =>
    simp only [withIds, List.lookup] at h
    cases hk : s == x with
    | true =>
      rw [hk] at h
      cases h
      exact ⟨0, by simp, by simp [(eq_of_beq hk).symm], by omega⟩
    | false =>
      rw [hk] at h
      rcases ih (n + 1) h with ⟨i, hi, hg, hj⟩
      exact ⟨i + 1, by simpa using Nat.succ_lt_succ hi, by simpa using hg, by omega⟩

/-! ## Setup lemmas: the vocabulary built by the methods is `withIds` -/

theorem setAll_eq_withIds_aux (l : List String) (v : Vocab) (n : Nat)
    (hn : l.Nodup) (hf : ∀ s ∈ l, v.lookup s = none) :
    setAll v n l = v ++ withIds n l := by
  induction l generalizing v n with
  | nil => simp [setAll, withIds]
  | cons s ss ih =>
    rcases List.nodup_cons.mp hn with ⟨hs, hss⟩
    simp only [setAll]
    rw [jsSet_fresh v s n (hf s (List.mem_cons_self s ss))]
    rw [ih (v ++ [(s, n)]) (n + 1) hss]
    · simp [withIds]
    · intro x hx
      rw [lookup_append, hf x (List.mem_cons_of_mem s hx)]
      have : ¬ x = s := fun he => hs (he ▸ hx)
      simp [Option.orElse, lookup_singleton, this]

theorem initSpecialTokens_vocab (t : CustomTokenizer) (hn : t.specialTokens.Nodup) :
    (initSpecialTokens t).vocab = withIds 0 t.specialTokens := by
  simp only [initSpecialTokens, buildReverseVocabFromVocab]
  exact setAll_eq_withIds_aux t.specialTokens [] 0 hn (by intro s _; rfl)

theorem initSpecialTokens_fields (t : CustomTokenizer) :
    (initSpecialTokens t).specialTokens = t.specialTokens ∧
    (initSpecialTokens t).caseSensitive = t.caseSensitive ∧
    (initSpecialTokens t).maxVocabSize = t.maxVocabSize := by
  simp [initSpecialTokens, buildReverseVocabFromVocab]

/-! ## The build loop: configuration preserved, vocabulary stays `withIds` -/

theorem addTok_fields (t : CustomTokenizer) (tok : String) :
    (addTok t tok).specialTokens = t.specialTokens ∧
    (addTok t tok).caseSensitive = t.caseSensitive ∧
    (addTok t tok).maxVocabSize = t.maxVocabSize ∧
    (addTok t tok).reverseVocab = t.reverseVocab := by
  unfold addTok
  split <;> simp

theorem addCapped_fields (ts : List String) (t : CustomTokenizer) :
    (addCapped t ts).specialTokens = t.specialTokens ∧
    (addCapped t ts).caseSensitive = t.caseSensitive ∧
    (addCapped t ts).maxVocabSize = t.maxVocabSize ∧
    (addCapped t ts).reverseVocab = t.reverseVocab := by
  induction ts generalizing t with
  | nil => simp [addCapped]
  | cons tok rest ih =>
    simp only [addCapped]
    split
    · simp
    · have h1 := addTok_fields t tok
      have h2 := ih (addTok t tok)
      exact ⟨h2.1.trans h1.1, h2.2.1.trans h1.2.1,
             h2.2.2.1.trans h1.2.2.1, h2.2.2.2.trans h1.2.2.2⟩

theorem addCapped_shape (ts : List String) (t : CustomTokenizer) (ks : List String)
    (hv : t.vocab = withIds 0 ks) (hk : ks.Nodup) :
    ∃ added : List String,
      (addCapped t ts).vocab = withIds 0 (ks ++ added) ∧
      added.Sublist ts ∧ (ks ++ added).Nodup := by
  induction ts generalizing t ks with
  | nil => exact ⟨[], by simpa [addCapped] using hv, List.Sublist.refl _, by simpa using hk⟩
  | cons tok rest ih =>
    simp only [addCapped]
    split
    · exact ⟨[], by simpa using hv, List.nil_sublist _, by simpa using hk⟩
    · by_cases hm : (t.vocab.lookup tok).isSome = true
      · have heq : addTok t tok = t := by simp [addTok, hm]
        rw [heq]
        rcases ih t ks hv hk with ⟨added, h1, h2, h3⟩
        exact ⟨added, h1, h2.cons _, h3⟩
      · have hnone : t.vocab.lookup tok = none := by
          cases h : t.vocab.lookup tok
          · rfl
          · exact absurd (by simp [h]) hm
        have hfresh : tok ∉ ks := by
          intro hmem
          rw [hv] at hnone
          have := lookup_withIds_mem 0 ks tok hmem
          rw [hnone] at this
          simp at this
        have hvoc : (addTok t tok).vocab = withIds 0 (ks ++ [tok]) := by
          simp only [addTok, hnone, Option.isSome_none, Bool.false_eq_true, if_false]
          show jsSet t.vocab tok t.vocabSize = _
          rw [hv, jsSet_fresh _ _ _ (by rw [← hv]; exact hnone)]
          rw [withIds_append]
          simp [CustomTokenizer.vocabSize, hv, withIds_length, withIds]
        have hker : (ks ++ [tok]).Nodup := by
          refine hk.append (List.nodup_singleton tok) ?_
          intro a ha hb
          rw [List.mem_singleton] at hb
          exact hfresh (hb ▸ ha)
        rcases ih (addTok t tok) (ks ++ [tok]) hvoc hker with ⟨added, h1, h2, h3⟩
        refine ⟨tok :: added, ?_, h2.cons₂ _, ?_⟩
        · rw [h1, List.append_assoc]
          rfl
        · rw [List.append_assoc] at h3
          exact h3

theorem addCapped_shape_after_init (ts : List String) (t : CustomTokenizer)
    (hn : t.specialTokens.Nodup) :
    ∃ added : List String,
      (addCapped (initSpecialTokens t) ts).vocab = withIds 0 (t.specialTokens ++ added) ∧
      added.Sublist ts ∧ (t.specialTokens ++ added).Nodup :=
  addCapped_shape ts (initSpecialTokens t) t.specialTokens (initSpecialTokens_vocab t hn) hn

theorem buildVocabFromInputText_shape (t : CustomTokenizer) (text : String)
    (hn : t.specialTokens.Nodup) :
    ∃ added,
      (buildVocabFromInputText t text).vocab = withIds 0 (t.specialTokens ++ added) ∧
      added.Sublist (dedupFirst (splitTextTokens (initSpecialTokens t) text)) ∧
      (t.specialTokens ++ added).Nodup := by
  rcases addCapped_shape_after_init
      (dedupFirst (splitTextTokens (initSpecialTokens t) text)) t hn with ⟨added, h1, h2, h3⟩
  exact ⟨added, by simpa [buildVocabFromInputText, buildReverseVocabFromVocab] using h1, h2, h3⟩

theorem buildVocabFromCorpus_shape (t : CustomTokenizer) (texts : List String)
    (hn : t.specialTokens.Nodup) :
    ∃ added,
      (buildVocabFromCorpus t texts).vocab = withIds 0 (t.specialTokens ++ added) ∧
      added.Sublist ((sortDescFreq (corpusCounts (initSpecialTokens t) texts)).map Prod.fst) ∧
      (t.specialTokens ++ added).Nodup := by
  rcases addCapped_shape_after_init
      ((sortDescFreq (corpusCounts (initSpecialTokens t) texts)).map Prod.fst) t hn with
    ⟨added, h1, h2, h3⟩
  exact ⟨added, by simpa [buildVocabFromCorpus, buildReverseVocabFromVocab] using h1, h2, h3⟩

/-! ## Claim C3: shape of successful encode -/

theorem mapTokenIds_unk (t : CustomTokenizer) (cu : Nat)
    (hu : t.vocab.lookup "<UNK>" = some cu) (toks : List String) :
    mapTokenIds t toks = .ok (toks.map (fun tok => (t.vocab.lookup tok).getD cu)) := by
  induction toks with
  | nil => rfl
  | cons tok rest ih =>
    simp only [mapTokenIds]
    cases h : t.vocab.lookup tok with
    | some i => simp [ih, h, Except.map]
    | none => simp [hu, ih, h, Except.map]

/-- Claim C3: when the unknown, sequence-start and sequence-end special
tokens are present in the vocabulary, `encode text` succeeds and returns
the id of `"<CLS>"`, then one id per splitter token (its own id when
present, the id of `"<UNK>"` otherwise), then the id of `"<SEP>"`; so
the first element, the last element and the length are as the claim
states. -/
theorem encode_ok_spec (t : CustomTokenizer) (text : String) (cu cc cs : Nat)
    (hu : t.vocab.lookup "<UNK>" = some cu)
    (hc : t.vocab.lookup "<CLS>" = some cc)
    (hs : t.vocab.lookup "<SEP>" = some cs) :
    ∃ ids, encode t text = .ok ids ∧
      ids = cc :: (splitTextTokens t text).map (fun tok => (t.vocab.lookup tok).getD cu)
        ++ [cs] ∧
      ids.head? = some cc ∧ ids.getLast? = some cs ∧
      ids.length = (splitTextTokens t text).length + 2 := by
  refine ⟨cc :: (splitTextTokens t text).map (fun tok => (t.vocab.lookup tok).getD cu)
    ++ [cs], ?_, rfl, rfl, ?_, by simp⟩
  · show (do
      let tokenIds ← mapTokenIds t (splitTextTokens t text)
      match t.vocab.lookup "<CLS>", t.vocab.lookup "<SEP>" with
      | some clsId, some sepId => Except.ok (clsId :: tokenIds ++ [sepId])
      | _, _ => Except.error "Required special tokens (CLS, SEP) not found in vocabulary")
      = _
    rw [mapTokenIds_unk t cu hu, hc, hs]
    rfl
  · exact List.getLast?_concat _

/-- Claim C3 witness: a concrete tokenizer built from `"hello world"`
has the three special tokens, and encoding `"Hi there"` produces the
claimed shape. -/
theorem encode_ok_spec_witness :
    ∃ ids, encode sampleTokenizer "Hi there" = .ok ids ∧
      ids = 2 :: (splitTextTokens sampleTokenizer "Hi there").map
          (fun tok => (sampleTokenizer.vocab.lookup tok).getD 1) ++ [3] ∧
      ids.head? = some 2 ∧ ids.getLast? = some 3 ∧
      ids.length = (splitTextTokens sampleTokenizer "Hi there").length + 2 :=
  encode_ok_spec sampleTokenizer "Hi there" 1 2 3 (by decide) (by decide) (by decide)

/-! ## Claim C4: encode checks the literal names, not the configured ones -/

/-- Claim C4 is a code bug: the implementation of `encode` looks up the
literal keys `"<UNK>"`, `"<CLS>"`, `"<SEP>"` rather than the configured
special-token names.  With configured names `<p> <u> <c> <s>` all
present, encode still fails; conversely, a vocabulary (loaded with
`fromJSON`) that lacks the unknown token does not make encode fail as
long as every token of the text is present. -/
theorem encode_literal_names_bug :
    (((CustomTokenizer.new
        { specialTokens := some ["<p>", "<u>", "<c>", "<s>"]
          caseSensitive := none
          maxVocabSize := none }).vocab.lookup "<u>").isSome ∧
     ((CustomTokenizer.new
        { specialTokens := some ["<p>", "<u>", "<c>", "<s>"]
          caseSensitive := none
          maxVocabSize := none }).vocab.lookup "<c>").isSome ∧
     ((CustomTokenizer.new
        { specialTokens := some ["<p>", "<u>", "<c>", "<s>"]
          caseSensitive := none
          maxVocabSize := none }).vocab.lookup "<s>").isSome ∧
     encode (CustomTokenizer.new
        { specialTokens := some ["<p>", "<u>", "<c>", "<s>"]
          caseSensitive := none
          maxVocabSize := none }) ""
       = .error "Required special tokens (CLS, SEP) not found in vocabulary") ∧
    ((fromJSON
        { vocab := [("<CLS>", 0), ("<SEP>", 1), ("hi", 2)]
          specialTokens := defaultSpecialTokens
          caseSensitive := false }).vocab.lookup "<UNK>" = none ∧
     encode (fromJSON
        { vocab := [("<CLS>", 0), ("<SEP>", 1), ("hi", 2)]
          specialTokens := defaultSpecialTokens
          caseSensitive := false }) "hi" = .ok [0, 2, 1]) := by
  refine ⟨⟨?_, ?_, ?_, ?_⟩, ?_, ?_⟩ <;> rfl

/-! ## Claim C9: serialization round trip -/

/-- Claim C9: `fromJSON (toJSON t)` reproduces the vocabulary, reverse
vocabulary, special-token list and case flag of `t`, while the maximum
vocabulary size is always reset to unlimited.  The hypothesis is the
class invariant that `t.reverseVocab` was produced from `t.vocab` by
`buildReverseVocabFromVocab`, which every constructor and build method
establishes. -/
theorem fromJSON_toJSON_roundtrip (t : CustomTokenizer)
    (h : t.reverseVocab = mkReverse t.vocab) :
    (fromJSON (toJSON t)).vocab = t.vocab ∧
    (fromJSON (toJSON t)).reverseVocab = t.reverseVocab ∧
    (fromJSON (toJSON t)).specialTokens = t.specialTokens ∧
    (fromJSON (toJSON t)).caseSensitive = t.caseSensitive ∧
    (fromJSON (toJSON t)).maxVocabSize = none :=
  ⟨rfl, h.symm, rfl, rfl, rfl⟩

/-- Claim C9 witness: round trip on a concrete tokenizer that was built
with `maxVocabSize = 10`; the copy matches except the cap is gone. -/
theorem fromJSON_toJSON_roundtrip_witness :
    (fromJSON (toJSON sampleCapped)).vocab = sampleCapped.vocab ∧
    (fromJSON (toJSON sampleCapped)).reverseVocab = sampleCapped.reverseVocab ∧
    (fromJSON (toJSON sampleCapped)).specialTokens = sampleCapped.specialTokens ∧
    (fromJSON (toJSON sampleCapped)).caseSensitive = sampleCapped.caseSensitive ∧
    (fromJSON (toJSON sampleCapped)).maxVocabSize = none :=
  fromJSON_toJSON_roundtrip sampleCapped (by rfl)

/-! ## Reverse vocabulary as the entrywise swap -/

theorem mkReverse_aux (v : Vocab) (r : ReverseVocab)
    (hf : ∀ p ∈ v, r.lookup p.2 = none) (hn : (v.map Prod.snd).Nodup) :
    v.foldl (fun r p => jsSet r p.2 p.1) r = r ++ v.map (fun p => (p.2, p.1)) := by
  induction v generalizing r with
  | nil => simp
  | cons p v ih =>
    simp only [List.foldl_cons]
    rw [jsSet_fresh r p.2 p.1 (hf p (List.mem_cons_self p v))]
    simp only [List.map_cons, List.nodup_cons] at hn
    refine (ih (r ++ [(p.2, p.1)]) ?_ hn.2).trans ?_
    · intro q hq
      rw [lookup_append, hf q (List.mem_cons_of_mem p hq)]
      have hne : ¬ q.2 = p.2 := by
        intro he
        exact hn.1 (he ▸ List.mem_map.mpr ⟨q, hq, rfl⟩)
      simp [Option.orElse, lookup_singleton, beq_false_of_ne hne]
    · simp

theorem mkReverse_eq_swap (v : Vocab) (hn : (v.map Prod.snd).Nodup) :
    mkReverse v = v.map (fun p => (p.2, p.1)) := by
  have h := mkReverse_aux v [] (by intro p _; rfl) hn
  simpa [mkReverse] using h

theorem swap_map_fst (v : Vocab) :
    (v.map (fun p => (p.2, p.1))).map Prod.fst = v.map Prod.snd := by
  simp [List.map_map]

theorem bij_of_withIds (ks : List String) (hk : ks.Nodup) :
    BijCorrespond (withIds 0 ks) (mkReverse (withIds 0 ks)) := by
  have hsnd := withIds_snd_nodup 0 ks
  rw [mkReverse_eq_swap _ hsnd]
  refine ⟨?_, ?_, ?_, ?_⟩
  · rw [withIds_map_fst]
    exact hk
  · rw [swap_map_fst]
    exact hsnd
  · intro p hp
    apply lookup_of_mem_nodup
    · rw [swap_map_fst]
      exact hsnd
    · exact List.mem_map.mpr ⟨p, hp, rfl⟩
  · intro q hq
    rcases List.mem_map.mp hq with ⟨p, hp, he⟩
    apply lookup_of_mem_nodup
    · rw [withIds_map_fst]
      exact hk
    · obtain ⟨a, b⟩ := p
      cases he
      exact hp

/-! ## Configuration fields survive every build -/

theorem buildVocabFromInputText_fields (t : CustomTokenizer) (text : String) :
    (buildVocabFromInputText t text).specialTokens = t.specialTokens ∧
    (buildVocabFromInputText t text).caseSensitive = t.caseSensitive ∧
    (buildVocabFromInputText t text).maxVocabSize = t.maxVocabSize := by
  have h := addCapped_fields (dedupFirst (splitTextTokens (initSpecialTokens t) text))
    (initSpecialTokens t)
  exact ⟨h.1, h.2.1, h.2.2.1⟩

theorem buildVocabFromCorpus_fields (t : CustomTokenizer) (texts : List String) :
    (buildVocabFromCorpus t texts).specialTokens = t.specialTokens ∧
    (buildVocabFromCorpus t texts).caseSensitive = t.caseSensitive ∧
    (buildVocabFromCorpus t texts).maxVocabSize = t.maxVocabSize := by
  have h := addCapped_fields
    ((sortDescFreq (corpusCounts (initSpecialTokens t) texts)).map Prod.fst)
    (initSpecialTokens t)
  exact ⟨h.1, h.2.1, h.2.2.1⟩

theorem applyOp_fields (t : CustomTokenizer) (op : BuildOp) :
    (applyOp t op).specialTokens = t.specialTokens ∧
    (applyOp t op).caseSensitive = t.caseSensitive ∧
    (applyOp t op).maxVocabSize = t.maxVocabSize := by
  cases op with
  | fromText s => exact buildVocabFromInputText_fields t s
  | fromCorpus ts => exact buildVocabFromCorpus_fields t ts

theorem applyOp_specPrefix (t : CustomTokenizer) (op : BuildOp)
    (hn : t.specialTokens.Nodup) : SpecPrefix (applyOp t op) := by
  cases op with
  | fromText s =>
    rcases buildVocabFromInputText_shape t s hn with ⟨added, h1, _, h3⟩
    show SpecPrefix (buildVocabFromInputText t s)
    exact ⟨added, by rw [(buildVocabFromInputText_fields t s).1]; exact h3,
           by rw [(buildVocabFromInputText_fields t s).1]; exact h1⟩
  | fromCorpus ts =>
    rcases buildVocabFromCorpus_shape t ts hn with ⟨added, h1, _, h3⟩
    show SpecPrefix (buildVocabFromCorpus t ts)
    exact ⟨added, by rw [(buildVocabFromCorpus_fields t ts).1]; exact h3,
           by rw [(buildVocabFromCorpus_fields t ts).1]; exact h1⟩

theorem applyOp_reverse (t : CustomTokenizer) (op : BuildOp) :
    (applyOp t op).reverseVocab = mkReverse (applyOp t op).vocab := by
  cases op with
  | fromText s => rfl
  | fromCorpus ts => rfl

theorem applyOps_master (ops : List BuildOp) (t : CustomTokenizer)
    (hn : t.specialTokens.Nodup) (hp : SpecPrefix t)
    (hr : t.reverseVocab = mkReverse t.vocab) :
    (applyOps t ops).specialTokens = t.specialTokens ∧
    (applyOps t ops).maxVocabSize = t.maxVocabSize ∧
    SpecPrefix (applyOps t ops) ∧
    (applyOps t ops).reverseVocab = mkReverse (applyOps t ops).vocab := by
  induction ops generalizing t with
  | nil => exact ⟨rfl, rfl, hp, hr⟩
  | cons op rest ih =>
    have hstep : applyOps t (op :: rest) = applyOps (applyOp t op) rest := rfl
    rw [hstep]
    have h1 := applyOp_fields t op
    have h3 := applyOp_specPrefix t op hn
    have h4 := applyOp_reverse t op
    rcases ih (applyOp t op) (h1.1 ▸ hn) h3 h4 with ⟨g1, g2, g3, g4⟩
    exact ⟨g1.trans h1.1, g2.trans h1.2.2, g3, g4⟩

theorem new_specPrefix (opts : TokenizerOptions)
    (hn : (opts.specialTokens.getD defaultSpecialTokens).Nodup) :
    SpecPrefix (CustomTokenizer.new opts) := by
  refine ⟨[], by simpa using hn, ?_⟩
  have h := initSpecialTokens_vocab
    (CustomTokenizer.mk [] [] (opts.specialTokens.getD defaultSpecialTokens)
      (opts.caseSensitive.getD false) opts.maxVocabSize) hn
  simpa [CustomTokenizer.new] using h

/-! ## Claim C5: the reverse vocabulary is the bijective inverse -/

/-- Claim C5: after construction (the empty operation sequence) and
after every sequence of vocabulary-build operations on a tokenizer whose
configured special tokens are distinct, the reverse vocabulary is the
exact bijective inverse of the vocabulary: both maps have unique keys,
`reverseVocab[vocab[tok]] = tok` for every vocabulary entry, and every
reverse entry arises from the vocabulary entry it swaps. -/
theorem reverseVocab_bijective (opts : TokenizerOptions)
    (hn : (opts.specialTokens.getD defaultSpecialTokens).Nodup)
    (ops : List BuildOp) :
    BijCorrespond (applyOps (CustomTokenizer.new opts) ops).vocab
      (applyOps (CustomTokenizer.new opts) ops).reverseVocab := by
  have hnew : (CustomTokenizer.new opts).specialTokens
      = opts.specialTokens.getD defaultSpecialTokens := rfl
  rcases applyOps_master ops (CustomTokenizer.new opts) (hnew ▸ hn)
    (new_specPrefix opts hn) rfl with ⟨_, _, ⟨added, hnd, hv⟩, hr⟩
  rw [hv] at hr
  rw [hv, hr]
  exact bij_of_withIds _ hnd

/-- Claim C5 witness: the bijection holds for a concrete default
tokenizer after one text build and one corpus build. -/
theorem reverseVocab_bijective_witness :
    BijCorrespond
      (applyOps (CustomTokenizer.new defaultOpts)
        [BuildOp.fromText "Hello world!", BuildOp.fromCorpus ["a b b", "b c"]]).vocab
      (applyOps (CustomTokenizer.new defaultOpts)
        [BuildOp.fromText "Hello world!", BuildOp.fromCorpus ["a b b", "b c"]]).reverseVocab :=
  reverseVocab_bijective defaultOpts (by decide)
    [BuildOp.fromText "Hello world!", BuildOp.fromCorpus ["a b b", "b c"]]

/-! ## Claim C7: the configured size cap is never exceeded -/

theorem jsSet_length_le {α β : Type} [BEq α] (l : List (α × β)) (k : α) (v : β) :
    (jsSet l k v).length ≤ l.length + 1 := by
  unfold jsSet
  split
  · simp
  · simp

theorem addTok_size_le (t : CustomTokenizer) (tok : String) :
    (addTok t tok).vocabSize ≤ t.vocabSize + 1 := by
  unfold addTok
  split
  · exact Nat.le_succ _
  · simp only [CustomTokenizer.vocabSize]
    exact jsSet_length_le _ _ _

theorem size_lt_of_not_capReached (t : CustomTokenizer) (k : Nat)
    (hm : t.maxVocabSize = some k) (hk : 0 < k) (h : capReached t = false) :
    t.vocabSize < k := by
  unfold capReached at h
  rw [hm] at h
  have hk0 : ¬ k = 0 := by omega
  simp [hk0] at h
  omega

theorem addCapped_size_le (ts : List String) (t : CustomTokenizer) (k : Nat)
    (hm : t.maxVocabSize = some k) (hk : 0 < k) (h : t.vocabSize ≤ k) :
    (addCapped t ts).vocabSize ≤ k := by
  induction ts generalizing t with
  | nil => exact h
  | cons tok rest ih =>
    simp only [addCapped]
    cases hc : capReached t with
    | true => simp only [hc, if_true]; exact h
    | false =>
      simp only [hc, Bool.false_eq_true, if_false]
      apply ih (addTok t tok) ((addTok_fields t tok).2.2.1.trans hm)
      have h1 := size_lt_of_not_capReached t k hm hk hc
      have h2 := addTok_size_le t tok
      omega

theorem setAll_length_le (l : List String) (v : Vocab) (n : Nat) :
    (setAll v n l).length ≤ v.length + l.length := by
  induction l generalizing v n with
  | nil => simp [setAll]
  | cons s ss ih =>
    simp only [setAll, List.length_cons]
    have h1 := ih (jsSet v s n) (n + 1)
    have h2 := jsSet_length_le v s n
    omega

theorem buildVocabFromInputText_size (t : CustomTokenizer) (text : String) (k : Nat)
    (hm : t.maxVocabSize = some k) (hk : 0 < k) (hsp : t.specialTokens.length ≤ k) :
    (buildVocabFromInputText t text).vocabSize ≤ k := by
  have hinit : (initSpecialTokens t).vocabSize ≤ k := by
    have h := setAll_length_le t.specialTokens [] 0
    show (setAll [] 0 t.specialTokens).length ≤ k
    simp only [List.length_nil] at h
    omega
  exact addCapped_size_le _ (initSpecialTokens t) k
    ((initSpecialTokens_fields t).2.2.trans hm) hk hinit

theorem buildVocabFromCorpus_size (t : CustomTokenizer) (texts : List String) (k : Nat)
    (hm : t.maxVocabSize = some k) (hk : 0 < k) (hsp : t.specialTokens.length ≤ k) :
    (buildVocabFromCorpus t texts).vocabSize ≤ k := by
  have hinit : (initSpecialTokens t).vocabSize ≤ k := by
    have h := setAll_length_le t.specialTokens [] 0
    show (setAll [] 0 t.specialTokens).length ≤ k
    simp only [List.length_nil] at h
    omega
  exact addCapped_size_le _ (initSpecialTokens t) k
    ((initSpecialTokens_fields t).2.2.trans hm) hk hinit

theorem applyOps_size_aux (ops : List BuildOp) (t : CustomTokenizer) (k : Nat)
    (hm : t.maxVocabSize = some k) (hk : 0 < k)
    (hsp : t.specialTokens.length ≤ k) (h : t.vocabSize ≤ k) :
    (applyOps t ops).vocabSize ≤ k := by
  induction ops generalizing t with
  | nil => exact h
  | cons op rest ih =>
    show (applyOps (applyOp t op) rest).vocabSize ≤ k
    have hf := applyOp_fields t op
    apply ih (applyOp t op) (hf.2.2.trans hm) (by rw [hf.1]; exact hsp)
    cases op with
    | fromText s => exact buildVocabFromInputText_size t s k hm hk hsp
    | fromCorpus ts => exact buildVocabFromCorpus_size t ts k hm hk hsp

/-- Claim C7: with a configured maximum vocabulary size `k` (a positive
integer, as the configuration requires) at least the number of special
tokens, no sequence of build operations ever produces a vocabulary of
more than `k` entries; builds complete normally, simply not assigning
the remaining tokens. -/
theorem vocabSize_le_cap (opts : TokenizerOptions) (k : Nat)
    (hm : opts.maxVocabSize = some k) (hk : 0 < k)
    (hsp : (opts.specialTokens.getD defaultSpecialTokens).length ≤ k)
    (ops : List BuildOp) :
    (applyOps (CustomTokenizer.new opts) ops).vocabSize ≤ k := by
  apply applyOps_size_aux ops (CustomTokenizer.new opts) k hm hk hsp
  have h := setAll_length_le (opts.specialTokens.getD defaultSpecialTokens) [] 0
  show (setAll [] 0 (opts.specialTokens.getD defaultSpecialTokens)).length ≤ k
  simp only [List.length_nil] at h
  omega

/-- Claim C7 witness: cap 5 with the four default special tokens; after
a text build and a corpus build, each offering more than five tokens,
the vocabulary stays within the cap. -/
theorem vocabSize_le_cap_witness :
    (applyOps
      (CustomTokenizer.new
        { specialTokens := none, caseSensitive := none, maxVocabSize := some 5 })
      [BuildOp.fromText "a b c d e f g", BuildOp.fromCorpus ["x y z w v u"]]).vocabSize
      ≤ 5 :=
  vocabSize_le_cap
    { specialTokens := none, caseSensitive := none, maxVocabSize := some 5 }
    5 rfl (by decide) (by decide)
    [BuildOp.fromText "a b c d e f g", BuildOp.fromCorpus ["x y z w v u"]]

/-! ## Claim C10: special tokens pinned to their configured indices -/

theorem lookup_withIds_prefix (sp added : List String) (hnd : (sp ++ added).Nodup)
    (i : Nat) (hi : i < sp.length) :
    (withIds 0 (sp ++ added)).lookup (sp.get ⟨i, hi⟩) = some i := by
  have hi' : i < (sp ++ added).length := by
    simp only [List.length_append]
    omega
  have hg : (sp ++ added).get ⟨i, hi'⟩ = sp.get ⟨i, hi⟩ := by
    show (sp ++ added)[i] = sp[i]
    exact List.getElem_append_left hi
  have h := lookup_withIds_get 0 (sp ++ added) hnd i hi'
  rw [hg] at h
  simpa using h

/-- Claim C10: after construction and after every sequence of build
operations, every configured special token (assumed pairwise distinct)
is present at its configured index; the vocabulary never has fewer
entries than there are special tokens, so when the configured cap is
smaller than the special-token count the size exceeds the cap — the cap
only limits the addition of non-special tokens. -/
theorem special_tokens_pinned (opts : TokenizerOptions)
    (hn : (opts.specialTokens.getD defaultSpecialTokens).Nodup)
    (ops : List BuildOp) :
    (∀ i (hi : i < (opts.specialTokens.getD defaultSpecialTokens).length),
      (applyOps (CustomTokenizer.new opts) ops).vocab.lookup
        ((opts.specialTokens.getD defaultSpecialTokens).get ⟨i, hi⟩) = some i) ∧
    (opts.specialTokens.getD defaultSpecialTokens).length
      ≤ (applyOps (CustomTokenizer.new opts) ops).vocabSize ∧
    (∀ m, opts.maxVocabSize = some m →
      m < (opts.specialTokens.getD defaultSpecialTokens).length →
      m < (applyOps (CustomTokenizer.new opts) ops).vocabSize) := by
  rcases applyOps_master ops (CustomTokenizer.new opts) hn (new_specPrefix opts hn) rfl
    with ⟨hsp, _, ⟨added, hnd, hv⟩, _⟩
  have hsp' : (applyOps (CustomTokenizer.new opts) ops).specialTokens
      = opts.specialTokens.getD defaultSpecialTokens := hsp
  rw [hsp'] at hnd hv
  have hsize : (applyOps (CustomTokenizer.new opts) ops).vocabSize
      = (opts.specialTokens.getD defaultSpecialTokens).length + added.length := by
    simp [CustomTokenizer.vocabSize, hv, withIds_length]
  refine ⟨?_, ?_, ?_⟩
  · intro i hi
    rw [hv]
    exact lookup_withIds_prefix _ added hnd i hi
  · omega
  · intro m _ hlt
    omega

/-- Claim C10 witness: cap 2 is smaller than the four default special
tokens; they are still all present at indices 0..3 and the size (at
least 4) exceeds the cap after a build. -/
theorem special_tokens_pinned_witness :
    (∀ i (hi : i < (((none : Option (List String))).getD defaultSpecialTokens).length),
      (applyOps (CustomTokenizer.new
          { specialTokens := none, caseSensitive := none, maxVocabSize := some 2 })
        [BuildOp.fromText "a b"]).vocab.lookup
        ((((none : Option (List String))).getD defaultSpecialTokens).get ⟨i, hi⟩)
        = some i) ∧
    (((none : Option (List String))).getD defaultSpecialTokens).length
      ≤ (applyOps (CustomTokenizer.new
          { specialTokens := none, caseSensitive := none, maxVocabSize := some 2 })
        [BuildOp.fromText "a b"]).vocabSize ∧
    (∀ m, (some 2 : Option Nat) = some m →
      m < (((none : Option (List String))).getD defaultSpecialTokens).length →
      m < (applyOps (CustomTokenizer.new
          { specialTokens := none, caseSensitive := none, maxVocabSize := some 2 })
        [BuildOp.fromText "a b"]).vocabSize) :=
  special_tokens_pinned
    { specialTokens := none, caseSensitive := none, maxVocabSize := some 2 }
    (by decide) [BuildOp.fromText "a b"]

/-! ## Small facts about `List.contains` on strings -/

theorem contains_true_iff (l : List String) (s : String) :
    l.contains s = true ↔ s ∈ l := by
  simp

theorem contains_false_iff (l : List String) (s : String) :
    l.contains s = false ↔ s ∉ l := by
  rw [← Bool.not_eq_true]
  simp

/-! ## Claim C8: decode as the one-pass contract -/

theorem mergeLoop_coerce : ∀ (l : List (Option String)) (res : String),
    mergeLoop res (l.map (fun o => some (tokenAsStr o))) = mergeLoop res l
  | [], _ => rfl
  | tok :: rest, res => by
    simp only [List.map_cons, mergeLoop]
    have h1 : tokenAsStr (some (tokenAsStr tok)) = tokenAsStr tok := rfl
    rw [h1]
    have h2 : (rest.map (fun o => some (tokenAsStr o))).isEmpty = rest.isEmpty := by
      cases rest <;> rfl
    rw [h2, mergeLoop_coerce rest _]

theorem decodeSpec_eq_pipeline (t : CustomTokenizer) (ids : List Nat) :
    decodeSpecTokens t ids
      = ((ids.map (fun i => t.reverseVocab.lookup i)).filter
          (fun o => match o with
            | some tok => ¬ t.specialTokens.contains tok
            | none => true)).map (fun o => some (tokenAsStr o)) := by
  induction ids with
  | nil => rfl
  | cons i rest ih =>
    show (match t.reverseVocab.lookup i with
      | some tok =>
        if t.specialTokens.contains tok then decodeSpecTokens t rest
        else some tok :: decodeSpecTokens t rest
      | none => some "undefined" :: decodeSpecTokens t rest) = _
    cases h : t.reverseVocab.lookup i with
    | some tok =>
      cases hc : t.specialTokens.contains tok with
      | true =>
        have hmem : tok ∈ t.specialTokens := (contains_true_iff _ _).mp hc
        simp [h, hc, ih, List.filter_cons, hmem, tokenAsStr]
      | false =>
        have hmem : tok ∉ t.specialTokens := (contains_false_iff _ _).mp hc
        simp [h, hc, ih, List.filter_cons, hmem, tokenAsStr]
    | none => simp [h, ih, List.filter_cons, tokenAsStr]

/-- Claim C8: for every id sequence, decode completes and returns the
string obtained by one pass over the ids in which an id present in the
reverse vocabulary contributes its token unless that token equals a
configured special token (such tokens are dropped wherever they occur),
and an id absent from the reverse vocabulary is never dropped and
surfaces as the literal word `"undefined"` merged into the output; the
model is a total function, mirroring the implementation, which cannot
throw. -/
theorem decode_contract (t : CustomTokenizer) (ids : List Nat) :
    decode t ids = trimJs (mergeLoop "" (decodeSpecTokens t ids)) := by
  unfold decode
  rw [decodeSpec_eq_pipeline, mergeLoop_coerce]

/-! ## Deduplication lemmas -/

theorem mem_dedupFirstAux (l : List String) :
    ∀ (seen : List String) (s : String),
      s ∈ dedupFirstAux l seen ↔ s ∈ l ∧ s ∉ seen := by
  induction l with
  | nil => intro seen s; simp [dedupFirstAux]
  | cons x xs ih =>
    intro seen s
    simp only [dedupFirstAux]
    cases hc : seen.contains x with
    | true =>
      have hx : x ∈ seen := (contains_true_iff seen x).mp hc
      rw [if_pos rfl, ih seen s]
      constructor
      · rintro ⟨h1, h2⟩
        exact ⟨List.mem_cons_of_mem x h1, h2⟩
      · rintro ⟨h1, h2⟩
        rcases List.mem_cons.mp h1 with h | h
        · exact absurd (h ▸ hx) h2
        · exact ⟨h, h2⟩
    | false =>
      have hx : x ∉ seen := (contains_false_iff seen x).mp hc
      rw [if_neg Bool.false_ne_true]
      simp only [List.mem_cons]
      constructor
      · rintro (h | h)
        · subst h
          exact ⟨Or.inl rfl, hx⟩
        · rcases (ih (x :: seen) s).mp h with ⟨h1, h2⟩
          refine ⟨Or.inr h1, fun hs => h2 (List.mem_cons_of_mem x hs)⟩
      · rintro ⟨h1 | h1, h2⟩
        · exact Or.inl h1
        · by_cases hsx : s = x
          · exact Or.inl hsx
          · refine Or.inr ((ih (x :: seen) s).mpr ⟨h1, fun hs => ?_⟩)
            rcases List.mem_cons.mp hs with h | h
            · exact hsx h
            · exact h2 h

theorem nodup_dedupFirstAux (l : List String) :
    ∀ seen : List String, (dedupFirstAux l seen).Nodup := by
  induction l with
  | nil => intro seen; simp [dedupFirstAux]
  | cons x xs ih =>
    intro seen
    simp only [dedupFirstAux]
    cases hc : seen.contains x with
    | true =>
      rw [if_pos rfl]
      exact ih seen
    | false =>
      rw [if_neg Bool.false_ne_true]
      refine List.nodup_cons.mpr ⟨?_, ih (x :: seen)⟩
      intro hmem
      exact ((mem_dedupFirstAux xs (x :: seen) x).mp hmem).2 (List.mem_cons_self x seen)

theorem nodup_dedupFirst (l : List String) : (dedupFirst l).Nodup :=
  nodup_dedupFirstAux l []

theorem mem_dedupFirst (l : List String) (s : String) :
    s ∈ dedupFirst l ↔ s ∈ l := by
  rw [dedupFirst, mem_dedupFirstAux]
  simp

/-! ## Claim C1: exact vocabulary of a single-text build -/

theorem addTok_fresh_vocab (t : CustomTokenizer) (tok : String) (ks : List String)
    (hv : t.vocab = withIds 0 ks) (hnone : t.vocab.lookup tok = none) :
    (addTok t tok).vocab = withIds 0 (ks ++ [tok]) := by
  simp only [addTok, hnone, Option.isSome_none, Bool.false_eq_true, if_false]
  show jsSet t.vocab tok t.vocabSize = _
  rw [hv, jsSet_fresh _ _ _ (by rw [← hv]; exact hnone)]
  rw [withIds_append]
  simp [CustomTokenizer.vocabSize, hv, withIds_length, withIds]

theorem addCapped_nocap (ts : List String) (t : CustomTokenizer) (ks : List String)
    (hm : t.maxVocabSize = none) (hv : t.vocab = withIds 0 ks) (hnt : ts.Nodup) :
    (addCapped t ts).vocab
      = withIds 0 (ks ++ ts.filter (fun s => !(ks.contains s))) := by
  induction ts generalizing t ks with
  | nil => simpa using hv
  | cons tok rest ih =>
    have hcap : capReached t = false := by simp [capReached, hm]
    simp only [addCapped, hcap, Bool.false_eq_true, if_false]
    rcases List.nodup_cons.mp hnt with ⟨htok, hrest⟩
    by_cases hmem : tok ∈ ks
    · have hsome : (t.vocab.lookup tok).isSome := by
        rw [hv]
        exact lookup_withIds_mem 0 ks tok hmem
      have heq : addTok t tok = t := by simp [addTok, hsome]
      rw [heq, ih t ks hm hv hrest]
      have hfe : List.filter (fun s => !(ks.contains s)) (tok :: rest)
          = List.filter (fun s => !(ks.contains s)) rest := by
        simp [List.filter_cons, hmem]
      rw [hfe]
    · have hnone : t.vocab.lookup tok = none := by
        rw [hv]
        exact lookup_withIds_of_not_mem 0 ks tok hmem
      rw [ih (addTok t tok) (ks ++ [tok]) ((addTok_fields t tok).2.2.1.trans hm)
        (addTok_fresh_vocab t tok ks hv hnone) hrest]
      congr 1
      rw [List.append_assoc]
      congr 1
      have hfeq : rest.filter (fun s => !((ks ++ [tok]).contains s))
          = rest.filter (fun s => !(ks.contains s)) := by
        apply List.filter_congr
        intro x hx
        have hne : ¬ x = tok := fun he => htok (he ▸ hx)
        by_cases hxk : x ∈ ks
        · have h1 : (ks ++ [tok]).contains x = true :=
            (contains_true_iff _ x).mpr (List.mem_append_left _ hxk)
          have h2 : ks.contains x = true := (contains_true_iff _ x).mpr hxk
          rw [h1, h2]
        · have h1 : (ks ++ [tok]).contains x = false := by
            rw [contains_false_iff]
            intro hmm
            rcases List.mem_append.mp hmm with h | h
            · exact hxk h
            · exact hne (List.mem_singleton.mp h)
          have h2 : ks.contains x = false := (contains_false_iff _ x).mpr hxk
          rw [h1, h2]
      rw [hfeq]
      simp [List.filter_cons, hmem]

theorem splitTextTokens_init (t : CustomTokenizer) (text : String) :
    splitTextTokens (initSpecialTokens t) text = splitTextTokens t text := rfl

/-- Claim C1 (amended): for a tokenizer whose configured special tokens
are pairwise distinct and which has no configured maximum vocabulary
size, `buildVocabFromInputText text` produces exactly the special tokens
at ids `0..k-1` in configured order followed by the unique splitter
tokens of `text` in first-seen order (those equal to a special token are
never reassigned and appear only at their special index), with ids
unique and contiguous from 0. -/
theorem buildVocabFromInputText_exact (t : CustomTokenizer) (text : String)
    (hn : t.specialTokens.Nodup) (hm : t.maxVocabSize = none) :
    (buildVocabFromInputText t text).vocab
      = withIds 0 (t.specialTokens ++
          (dedupFirst (splitTextTokens t text)).filter
            (fun s => !(t.specialTokens.contains s))) ∧
    (t.specialTokens ++
        (dedupFirst (splitTextTokens t text)).filter
          (fun s => !(t.specialTokens.contains s))).Nodup := by
  constructor
  · show (addCapped (initSpecialTokens t)
        (dedupFirst (splitTextTokens (initSpecialTokens t) text))).vocab = _
    rw [splitTextTokens_init]
    exact addCapped_nocap _ (initSpecialTokens t) t.specialTokens
      ((initSpecialTokens_fields t).2.2.trans hm)
      (initSpecialTokens_vocab t hn)
      (nodup_dedupFirst _)
  · refine hn.append ((nodup_dedupFirst _).filter _) ?_
    intro s hs hsf
    have hb := List.of_mem_filter hsf
    exact (by simpa using hb : s ∉ t.specialTokens) hs

/-- Claim C1 counterexample: the claim quantifies over every tokenizer
configuration, but with `maxVocabSize = 4` (= the number of special
tokens) the splitter token `"a"` of the text `"a"` is never added, so
the vocabulary does not contain the unique splitter tokens after the
special tokens. -/
theorem buildVocabFromInputText_cap_counterexample :
    "a" ∈ splitTextTokens
        (CustomTokenizer.new
          { specialTokens := none, caseSensitive := none, maxVocabSize := some 4 })
        "a" ∧
    (buildVocabFromInputText
        (CustomTokenizer.new
          { specialTokens := none, caseSensitive := none, maxVocabSize := some 4 })
        "a").vocab.lookup "a" = none := by
  exact ⟨by decide, by rfl⟩

/-- Claim C1 witness: the amended statement evaluated on the default
configuration and the text `"Hello world!"`. -/
theorem buildVocabFromInputText_exact_witness :
    (buildVocabFromInputText (CustomTokenizer.new defaultOpts) "Hello world!").vocab
      = withIds 0 ((CustomTokenizer.new defaultOpts).specialTokens ++
          (dedupFirst (splitTextTokens (CustomTokenizer.new defaultOpts) "Hello world!")).filter
            (fun s => !((CustomTokenizer.new defaultOpts).specialTokens.contains s))) ∧
    ((CustomTokenizer.new defaultOpts).specialTokens ++
        (dedupFirst (splitTextTokens (CustomTokenizer.new defaultOpts) "Hello world!")).filter
          (fun s => !((CustomTokenizer.new defaultOpts).specialTokens.contains s))).Nodup :=
  buildVocabFromInputText_exact (CustomTokenizer.new defaultOpts) "Hello world!"
    (by decide) rfl

/-! ## Character-level facts for the round trip -/

theorem plainChar_toLower (c : Char) (h : plainChar c = true) :
    plainChar c.toLower = true := by
  simp only [Char.toLower]
  split
  · rename_i hn
    obtain ⟨h1, h2⟩ := hn
    set n := c.toNat with hdef
    interval_cases n <;> decide
  · exact h

theorem toLower_not_upper (c : Char) (h : 65 ≤ (Char.toLower c).toNat ∧ (Char.toLower c).toNat ≤ 90) :
    False := by
  simp only [Char.toLower] at h
  by_cases hn : c.toNat ≥ 65 ∧ c.toNat ≤ 90
  · rw [if_pos hn] at h
    obtain ⟨h1, h2⟩ := hn
    set n := c.toNat with hdef
    interval_cases n <;> exact absurd h (by decide)
  · rw [if_neg hn] at h
    exact hn h

theorem lowered_notMem_defaults (l : List Char) :
    String.mk (l.map Char.toLower) ∉ defaultSpecialTokens := by
  intro hmem
  have hupper : ∀ (u : Char), 65 ≤ u.toNat → u.toNat ≤ 90 →
      u ∉ l.map Char.toLower := by
    intro u hu1 hu2 humem
    rcases List.mem_map.mp humem with ⟨c, _, hc⟩
    exact toLower_not_upper c (by rw [hc]; exact ⟨hu1, hu2⟩)
  have hget : ∀ (s : String) (u : Char), String.mk (l.map Char.toLower) = s →
      u ∈ s.data → u ∈ l.map Char.toLower := by
    intro s u he hu
    rw [← congrArg String.data he] at hu
    exact hu
  simp only [defaultSpecialTokens, List.mem_cons] at hmem
  rcases hmem with h | h | h | h | h
  · exact hupper (Char.ofNat 80) (by decide) (by decide) (hget _ _ h (by decide))
  · exact hupper (Char.ofNat 85) (by decide) (by decide) (hget _ _ h (by decide))
  · exact hupper (Char.ofNat 67) (by decide) (by decide) (hget _ _ h (by decide))
  · exact hupper (Char.ofNat 83) (by decide) (by decide) (hget _ _ h (by decide))
  · exact absurd h (List.not_mem_nil _)

/-! ## The splitter on punctuation-free single-spaced text -/

theorem expandPunct_id (l : List Char)
    (h : ∀ c ∈ l, isSplitPunct c = false ∧ ¬ c = ',') :
    expandPunct l = l := by
  induction l with
  | nil => rfl
  | cons c cs ih =>
    obtain ⟨h1, h2⟩ := h c (List.mem_cons_self c cs)
    simp only [expandPunct, h1, h2]
    rw [if_neg (by simp)]
    rw [ih (fun x hx => h x (List.mem_cons_of_mem c hx))]

theorem splitRuns_ne_nil (p : Char → Bool) (l : List Char) : splitRuns p l ≠ [] := by
  cases l with
  | nil => simp [splitRuns]
  | cons c cs =>
    simp only [splitRuns]
    cases h : splitRuns p cs with
    | nil => simp
    | cons g gs =>
      cases hp : p c <;> simp

theorem splitRuns_cons_sep (p : Char → Bool) (c : Char) (rest : List Char)
    (hc : p c = true) :
    splitRuns p (c :: rest) = [] :: splitRuns p rest := by
  simp only [splitRuns]
  cases h : splitRuns p rest with
  | nil => exact absurd h (splitRuns_ne_nil p rest)
  | cons g gs => simp [hc]

theorem splitRuns_append_word (p : Char → Bool) (w rest : List Char)
    (hw : ∀ c ∈ w, p c = false) :
    splitRuns p (w ++ rest)
      = match splitRuns p rest with
        | [] => [w]
        | g :: gs => (w ++ g) :: gs := by
  induction w with
  | nil =>
    cases h : splitRuns p rest with
    | nil => exact absurd h (splitRuns_ne_nil p rest)
    | cons g gs => simp [h]
  | cons c cs ih =>
    have hc : p c = false := hw c (List.mem_cons_self c cs)
    have ih' := ih (fun x hx => hw x (List.mem_cons_of_mem c hx))
    show splitRuns p (c :: (cs ++ rest)) = _
    simp only [splitRuns]
    rw [ih']
    cases h : splitRuns p rest with
    | nil => exact absurd h (splitRuns_ne_nil p rest)
    | cons g gs => simp [hc]

theorem splitRuns_append_word_cons (p : Char → Bool) (w rest : List Char)
    (hw : ∀ c ∈ w, p c = false) (g : List Char) (gs : List (List Char))
    (h : splitRuns p rest = g :: gs) :
    splitRuns p (w ++ rest) = (w ++ g) :: gs := by
  rw [splitRuns_append_word p w rest hw, h]

theorem joinWords_cons₂ (w w2 : String) (ws : List String) :
    joinWords (w :: w2 :: ws) = w ++ " " ++ joinWords (w2 :: ws) := rfl

theorem wordsOf_joinWords (ws : List String)
    (h1 : ∀ w ∈ ws, ¬ w.data = [])
    (h2 : ∀ w ∈ ws, ∀ c ∈ w.data, isJsWhitespace c = false) :
    ((splitRuns isJsWhitespace (joinWords ws).data).filter (fun g => ¬ g = [])).map
      (fun g => String.mk g) = ws := by
  induction ws with
  | nil => rfl
  | cons w ws' ih =>
    cases ws' with
    | nil =>
      have hw := h2 w (List.mem_cons_self w [])
      have hne := h1 w (List.mem_cons_self w [])
      show ((splitRuns isJsWhitespace w.data).filter (fun g => ¬ g = [])).map
          (fun g => String.mk g) = [w]
      have hsp : splitRuns isJsWhitespace w.data = [w.data] := by
        have := splitRuns_append_word isJsWhitespace w.data [] hw
        simpa [splitRuns] using this
      rw [hsp]
      simp only [List.filter_cons, List.filter_nil]
      rw [if_pos (by simpa using hne)]
      rfl
    | cons w2 ws'' =>
      have hw := h2 w (List.mem_cons_self w (w2 :: ws''))
      have hne := h1 w (List.mem_cons_self w (w2 :: ws''))
      rw [joinWords_cons₂]
      have hdata : (w ++ " " ++ joinWords (w2 :: ws'')).data
          = w.data ++ (' ' :: (joinWords (w2 :: ws'')).data) := by
        rw [String.data_append, String.data_append]
        simp
      rw [hdata]
      rw [splitRuns_append_word_cons isJsWhitespace w.data _ hw _ _
          (splitRuns_cons_sep isJsWhitespace ' ' _ (by decide))]
      rw [List.filter_cons, if_pos (by simpa using hne)]
      simp only [List.map_cons, List.append_nil]
      rw [ih (fun x hx => h1 x (List.mem_cons_of_mem w hx))
          (fun x hx => h2 x (List.mem_cons_of_mem w hx))]

/-! ## Case folding distributes over joining -/

theorem lowerStr_append (a b : String) : lowerStr (a ++ b) = lowerStr a ++ lowerStr b := by
  show String.mk ((a ++ b).data.map Char.toLower)
      = String.mk (a.data.map Char.toLower ++ b.data.map Char.toLower)
  rw [String.data_append, List.map_append]

theorem lowerStr_join (ws : List String) :
    lowerStr (joinWords ws) = joinWords (ws.map lowerStr) := by
  induction ws with
  | nil => rfl
  | cons w ws' ih =>
    cases ws' with
    | nil => rfl
    | cons w2 ws'' =>
      rw [joinWords_cons₂, lowerStr_append, lowerStr_append, ih]
      show _ = joinWords (lowerStr w :: lowerStr w2 :: ws''.map lowerStr)
      rw [joinWords_cons₂]
      have hsp : lowerStr " " = " " := rfl
      rw [hsp]
      rfl

theorem plainChar_spec (c : Char) (h : plainChar c = true) :
    isJsWhitespace c = false ∧ isSplitPunct c = false ∧ ¬ c = ',' ∧
    isDecodePunct c = false := by
  unfold plainChar at h
  simp only [Bool.and_eq_true, Bool.not_eq_true'] at h
  obtain ⟨⟨⟨hws, hsp⟩, hcm⟩, hdp⟩ := h
  refine ⟨hws, hsp, ?_, hdp⟩
  intro he
  rw [he] at hcm
  simp at hcm

theorem mem_joinWords_data (ws : List String) (c : Char)
    (h : c ∈ (joinWords ws).data) :
    c = ' ' ∨ ∃ w ∈ ws, c ∈ w.data := by
  induction ws with
  | nil => simp [joinWords] at h
  | cons w ws' ih =>
    cases ws' with
    | nil => exact Or.inr ⟨w, List.mem_cons_self w [], h⟩
    | cons w2 ws'' =>
      rw [joinWords_cons₂, String.data_append, String.data_append] at h
      rcases List.mem_append.mp h with h | h
      · rcases List.mem_append.mp h with h | h
        · exact Or.inr ⟨w, List.mem_cons_self _ _, h⟩
        · exact Or.inl (List.mem_singleton.mp h)
      · rcases ih h with h | ⟨w', hw', hc'⟩
        · exact Or.inl h
        · exact Or.inr ⟨w', List.mem_cons_of_mem w hw', hc'⟩

theorem splitTextTokens_congr (t1 t2 : CustomTokenizer)
    (h : t1.caseSensitive = t2.caseSensitive) (text : String) :
    splitTextTokens t1 text = splitTextTokens t2 text := by
  unfold splitTextTokens
  rw [h]

theorem splitTextTokens_words (t : CustomTokenizer) (hcs : t.caseSensitive = false)
    (ws : List String)
    (h1 : ∀ w ∈ ws, ¬ w.data = [])
    (h2 : ∀ w ∈ ws, ∀ c ∈ w.data, plainChar c = true) :
    splitTextTokens t (joinWords ws) = ws.map lowerStr := by
  have h1' : ∀ w ∈ ws.map lowerStr, ¬ w.data = [] := by
    intro w hw
    rcases List.mem_map.mp hw with ⟨v, hv, he⟩
    subst he
    intro hh
    exact h1 v hv (List.map_eq_nil_iff.mp hh)
  have h2' : ∀ w ∈ ws.map lowerStr, ∀ c ∈ w.data, plainChar c = true := by
    intro w hw c hc
    rcases List.mem_map.mp hw with ⟨v, hv, he⟩
    subst he
    rcases List.mem_map.mp hc with ⟨c0, hc0, he0⟩
    rw [← he0]
    exact plainChar_toLower c0 (h2 v hv c0 hc0)
  unfold splitTextTokens
  rw [hcs]
  simp only [Bool.false_eq_true, if_false]
  rw [lowerStr_join]
  have hexp : expandPunct (joinWords (ws.map lowerStr)).data
      = (joinWords (ws.map lowerStr)).data := by
    apply expandPunct_id
    intro c hc
    rcases mem_joinWords_data _ c hc with h | ⟨w, hw, hcw⟩
    · subst h
      exact ⟨by decide, by decide⟩
    · rcases plainChar_spec c (h2' w hw c hcw) with ⟨_, hb, hd, _⟩
      exact ⟨hb, hd⟩
  rw [hexp]
  exact wordsOf_joinWords _ h1'
    (fun w hw c hc => (plainChar_spec c (h2' w hw c hc)).1)

/-! ## The reconstruction loop on plain words -/

theorem isPunctToken_of_plain (s : String)
    (h : ∀ c ∈ s.data, plainChar c = true) : isPunctToken s = false := by
  unfold isPunctToken
  rcases hd : s.data with _ | ⟨c, _ | ⟨c2, cs⟩⟩
  · rfl
  · show isDecodePunct c = false
    exact (plainChar_spec c (h c (by rw [hd]; exact List.mem_cons_self _ _))).2.2.2
  · rfl

theorem mergeLoop_cons (res : String) (tok : Option String)
    (rest : List (Option String)) :
    mergeLoop res (tok :: rest)
      = mergeLoop
          (if rest.isEmpty then
            (if isPunctToken (tokenAsStr tok) then trimEndJs res ++ tokenAsStr tok
             else res ++ tokenAsStr tok)
           else
            (if isPunctToken (tokenAsStr tok) then trimEndJs res ++ tokenAsStr tok
             else res ++ tokenAsStr tok) ++ " ")
          rest := rfl

theorem mergeLoop_words : ∀ (toks : List String) (res : String),
    (∀ s ∈ toks, isPunctToken s = false) →
    mergeLoop res (toks.map some) = res ++ joinWords toks
  | [], res, _ => by
    show res = res ++ ""
    exact (String.append_empty res).symm
  | [t], res, h => by
    have hp := h t (List.mem_cons_self t [])
    show mergeLoop res [some t] = res ++ t
    rw [mergeLoop_cons]
    have ht : tokenAsStr (some t) = t := rfl
    rw [ht, hp]
    simp only [Bool.false_eq_true, if_false, List.isEmpty_nil, if_true]
    rfl
  | t :: t2 :: rest, res, h => by
    have hp := h t (List.mem_cons_self t (t2 :: rest))
    show mergeLoop res (some t :: (t2 :: rest).map some) = res ++ joinWords (t :: t2 :: rest)
    rw [mergeLoop_cons]
    have ht : tokenAsStr (some t) = t := rfl
    rw [ht, hp]
    simp only [Bool.false_eq_true, if_false]
    have hnem : ((t2 :: rest).map some).isEmpty = false := rfl
    rw [hnem]
    simp only [Bool.false_eq_true, if_false]
    rw [mergeLoop_words (t2 :: rest) (res ++ t ++ " ")
      (fun s hs => h s (List.mem_cons_of_mem t hs))]
    show res ++ t ++ " " ++ joinWords (t2 :: rest) = res ++ (t ++ " " ++ joinWords (t2 :: rest))
    rw [String.append_assoc, String.append_assoc, String.append_assoc]

/-! ## Trimming is the identity on space-free edges -/

theorem dropWhile_head_false (p : Char → Bool) :
    ∀ (l : List Char), (∀ c l', l = c :: l' → p c = false) → l.dropWhile p = l
  | [], _ => rfl
  | c :: cs, h => by
    rw [List.dropWhile_cons, if_neg (by simp [h c cs rfl])]

theorem trimJs_eq_self (s : String)
    (h1 : ∀ c l', s.data = c :: l' → isJsWhitespace c = false)
    (h2 : ∀ c l', s.data.reverse = c :: l' → isJsWhitespace c = false) :
    trimJs s = s := by
  unfold trimJs
  rw [dropWhile_head_false isJsWhitespace s.data h1]
  rw [dropWhile_head_false isJsWhitespace s.data.reverse h2]
  rw [List.reverse_reverse]

theorem joinWords_data_head (w : String) (ws : List String) (hne : ¬ w.data = []) :
    ∃ c l', (joinWords (w :: ws)).data = c :: l' ∧ c ∈ w.data := by
  cases ws with
  | nil =>
    cases hd : w.data with
    | nil => exact absurd hd hne
    | cons c cs => exact ⟨c, cs, hd, by simp [hd]⟩
  | cons w2 ws'' =>
    rw [joinWords_cons₂]
    cases hd : w.data with
    | nil => exact absurd hd hne
    | cons c cs =>
      refine ⟨c, cs ++ (' ' :: (joinWords (w2 :: ws'')).data), ?_, ?_⟩
      · rw [String.data_append, String.data_append, hd]
        simp
      · simp [hd]

theorem joinWords_data_last (ws : List String) (hws : ws ≠ [])
    (h1 : ∀ w ∈ ws, ¬ w.data = []) :
    ∃ c l', (joinWords ws).data.reverse = c :: l' ∧ ∃ w ∈ ws, c ∈ w.data := by
  induction ws with
  | nil => exact absurd rfl hws
  | cons w ws' ih =>
    cases ws' with
    | nil =>
      cases hd : w.data.reverse with
      | nil => exact absurd (List.reverse_eq_nil_iff.mp hd) (h1 w (List.mem_cons_self _ _))
      | cons c cs =>
        refine ⟨c, cs, hd, w, List.mem_cons_self _ _, ?_⟩
        have : c ∈ w.data.reverse := by
          rw [hd]
          exact List.mem_cons_self _ _
        exact List.mem_reverse.mp this
    | cons w2 ws'' =>
      rcases ih (by simp) (fun x hx => h1 x (List.mem_cons_of_mem w hx)) with
        ⟨c, l', hrev, w', hw', hc'⟩
      refine ⟨c, l' ++ (' ' :: w.data.reverse), ?_, w', List.mem_cons_of_mem w hw', hc'⟩
      rw [joinWords_cons₂, String.data_append, String.data_append]
      show (w.data ++ [' '] ++ (joinWords (w2 :: ws'')).data).reverse = _
      rw [List.reverse_append, List.reverse_append, hrev]
      simp

/-! ## Claim C6: the round trip on plain single-spaced words -/

theorem lowerStr_words_ne_nil (ws : List String) (h1 : ∀ w ∈ ws, ¬ w.data = []) :
    ∀ w ∈ ws.map lowerStr, ¬ w.data = [] := by
  intro w hw
  rcases List.mem_map.mp hw with ⟨v, hv, he⟩
  subst he
  intro hh
  exact h1 v hv (List.map_eq_nil_iff.mp hh)

theorem lowerStr_words_plain (ws : List String)
    (h2 : ∀ w ∈ ws, ∀ c ∈ w.data, plainChar c = true) :
    ∀ w ∈ ws.map lowerStr, ∀ c ∈ w.data, plainChar c = true := by
  intro w hw c hc
  rcases List.mem_map.mp hw with ⟨v, hv, he⟩
  subst he
  rcases List.mem_map.mp hc with ⟨c0, hc0, he0⟩
  rw [← he0]
  exact plainChar_toLower c0 (h2 v hv c0 hc0)

/-- Claim C6 (amended): for input made of nonempty words separated by
single spaces, each word containing neither whitespace nor any character
of the splitter or decoder punctuation sets, building the vocabulary
from the text and then decoding its encoding reproduces the case-folded
(whitespace-already-normal) text.  The amendment excludes punctuation
marks inside the text: the decoder re-attaches punctuation tokens to the
preceding word, so texts with free-standing punctuation do not round
trip (see the counterexample). -/
theorem decode_encode_roundtrip (ws : List String)
    (h1 : ∀ w ∈ ws, ¬ w.data = [])
    (h2 : ∀ w ∈ ws, ∀ c ∈ w.data, plainChar c = true) :
    ∃ ids,
      encode (buildVocabFromInputText (CustomTokenizer.new defaultOpts) (joinWords ws))
        (joinWords ws) = .ok ids ∧
      decode (buildVocabFromInputText (CustomTokenizer.new defaultOpts) (joinWords ws)) ids
        = lowerStr (joinWords ws) := by
  have hnodup : (CustomTokenizer.new defaultOpts).specialTokens.Nodup := by decide
  obtain ⟨hv, hk⟩ := buildVocabFromInputText_exact (CustomTokenizer.new defaultOpts)
    (joinWords ws) hnodup rfl
  have htoks : splitTextTokens (CustomTokenizer.new defaultOpts) (joinWords ws)
      = ws.map lowerStr := splitTextTokens_words _ rfl ws h1 h2
  rw [htoks] at hv hk
  have hfields := buildVocabFromInputText_fields (CustomTokenizer.new defaultOpts)
    (joinWords ws)
  have hsplit : splitTextTokens
      (buildVocabFromInputText (CustomTokenizer.new defaultOpts) (joinWords ws))
      (joinWords ws) = ws.map lowerStr :=
    (splitTextTokens_congr _ _ hfields.2.1 _).trans htoks
  have h1' := lowerStr_words_ne_nil ws h1
  have h2' := lowerStr_words_plain ws h2
  have hnotmem : ∀ tok ∈ ws.map lowerStr, tok ∉ defaultSpecialTokens := by
    intro tok htok
    rcases List.mem_map.mp htok with ⟨v, _, he⟩
    subst he
    exact lowered_notMem_defaults v.data
  have hfresh : ∀ tok ∈ ws.map lowerStr,
      tok ∈ (dedupFirst (ws.map lowerStr)).filter
        (fun s => !((CustomTokenizer.new defaultOpts).specialTokens.contains s)) := by
    intro tok htok
    refine List.mem_filter.mpr ⟨(mem_dedupFirst _ tok).mpr htok, ?_⟩
    simpa using hnotmem tok htok
  have hlk : ∀ tok ∈ ws.map lowerStr,
      ∃ i, (buildVocabFromInputText (CustomTokenizer.new defaultOpts)
        (joinWords ws)).vocab.lookup tok = some i := by
    intro tok htok
    have hmem : tok ∈ (CustomTokenizer.new defaultOpts).specialTokens ++
        (dedupFirst (ws.map lowerStr)).filter
          (fun s => !((CustomTokenizer.new defaultOpts).specialTokens.contains s)) :=
      List.mem_append_right _ (hfresh tok htok)
    have := lookup_withIds_mem 0 _ tok hmem
    rw [← hv] at this
    exact Option.isSome_iff_exists.mp this
  have hU : (buildVocabFromInputText (CustomTokenizer.new defaultOpts)
      (joinWords ws)).vocab.lookup "<UNK>" = some 1 := by
    rw [hv]
    exact lookup_withIds_prefix defaultSpecialTokens _ hk 1 (by decide)
  have hC : (buildVocabFromInputText (CustomTokenizer.new defaultOpts)
      (joinWords ws)).vocab.lookup "<CLS>" = some 2 := by
    rw [hv]
    exact lookup_withIds_prefix defaultSpecialTokens _ hk 2 (by decide)
  have hS : (buildVocabFromInputText (CustomTokenizer.new defaultOpts)
      (joinWords ws)).vocab.lookup "<SEP>" = some 3 := by
    rw [hv]
    exact lookup_withIds_prefix defaultSpecialTokens _ hk 3 (by decide)
  obtain ⟨ids, hok, hids, _, _, _⟩ := encode_ok_spec _ (joinWords ws) 1 2 3 hU hC hS
  rw [hsplit] at hids
  refine ⟨ids, hok, ?_⟩
  have hbij := bij_of_withIds _ hk
  have hrv : (buildVocabFromInputText (CustomTokenizer.new defaultOpts)
      (joinWords ws)).reverseVocab
      = mkReverse ((buildVocabFromInputText (CustomTokenizer.new defaultOpts)
        (joinWords ws)).vocab) := rfl
  have hrvC : (buildVocabFromInputText (CustomTokenizer.new defaultOpts)
      (joinWords ws)).reverseVocab.lookup 2 = some "<CLS>" := by
    have hm := mem_of_lookup _ _ _ hC
    rw [hv] at hm
    rw [hrv, hv]
    exact hbij.2.2.1 ("<CLS>", 2) hm
  have hrvS : (buildVocabFromInputText (CustomTokenizer.new defaultOpts)
      (joinWords ws)).reverseVocab.lookup 3 = some "<SEP>" := by
    have hm := mem_of_lookup _ _ _ hS
    rw [hv] at hm
    rw [hrv, hv]
    exact hbij.2.2.1 ("<SEP>", 3) hm
  have hg : ∀ tok ∈ ws.map lowerStr,
      (buildVocabFromInputText (CustomTokenizer.new defaultOpts)
        (joinWords ws)).reverseVocab.lookup
        (((buildVocabFromInputText (CustomTokenizer.new defaultOpts)
          (joinWords ws)).vocab.lookup tok).getD 1) = some tok := by
    intro tok htok
    obtain ⟨i, hi⟩ := hlk tok htok
    rw [hi, Option.getD_some]
    have hm := mem_of_lookup _ _ _ hi
    rw [hv] at hm
    rw [hrv, hv]
    exact hbij.2.2.1 (tok, i) hm
  show decode _ ids = _
  unfold decode
  rw [hids]
  simp only [List.map_cons, List.map_append, List.map_nil]
  rw [hrvC, hrvS]
  have hmid : List.map
      (fun i => (buildVocabFromInputText (CustomTokenizer.new defaultOpts)
        (joinWords ws)).reverseVocab.lookup i)
      (List.map
        (fun tok => ((buildVocabFromInputText (CustomTokenizer.new defaultOpts)
          (joinWords ws)).vocab.lookup tok).getD 1)
        (ws.map lowerStr))
      = List.map some (ws.map lowerStr) := by
    rw [List.map_map]
    exact List.map_congr_left (fun tok htok => hg tok htok)
  rw [hmid]
  rw [List.filter_append]
  rw [List.filter_cons]
  rw [if_neg (by rw [hfields.1]; decide)]
  have hkeep : (List.map some (ws.map lowerStr)).filter
      (fun o => match o with
        | some tok => ¬ (buildVocabFromInputText (CustomTokenizer.new defaultOpts)
            (joinWords ws)).specialTokens.contains tok
        | none => true)
      = List.map some (ws.map lowerStr) := by
    apply List.filter_eq_self.mpr
    intro o ho
    rcases List.mem_map.mp ho with ⟨tok, htok, he⟩
    subst he
    rw [hfields.1]
    simpa using hnotmem tok htok
  rw [hkeep]
  have hdrop : ([some "<SEP>"] : List (Option String)).filter
      (fun o => match o with
        | some tok => ¬ (buildVocabFromInputText (CustomTokenizer.new defaultOpts)
            (joinWords ws)).specialTokens.contains tok
        | none => true) = [] := by
    rw [List.filter_cons]
    rw [if_neg (by rw [hfields.1]; decide)]
    rfl
  rw [hdrop, List.append_nil]
  have hnp : ∀ s ∈ ws.map lowerStr, isPunctToken s = false := by
    intro s hs
    exact isPunctToken_of_plain s (h2' s hs)
  rw [mergeLoop_words _ "" hnp, String.empty_append]
  have hhead : ∀ c l', (joinWords (ws.map lowerStr)).data = c :: l' →
      isJsWhitespace c = false := by
    intro c l' he
    cases htk : ws.map lowerStr with
    | nil =>
      rw [htk] at he
      simp [joinWords] at he
    | cons w' rest' =>
      rcases joinWords_data_head w' rest'
        (h1' w' (htk ▸ List.mem_cons_self w' rest')) with ⟨c0, l0, he0, hc0⟩
      rw [htk, he0] at he
      injection he with hce _
      rw [← hce]
      exact (plainChar_spec c0 (h2' w' (htk ▸ List.mem_cons_self w' rest') c0 hc0)).1
  have hlast : ∀ c l', (joinWords (ws.map lowerStr)).data.reverse = c :: l' →
      isJsWhitespace c = false := by
    intro c l' he
    cases htk : ws.map lowerStr with
    | nil =>
      rw [htk] at he
      simp [joinWords] at he
    | cons w' rest' =>
      rcases joinWords_data_last (w' :: rest') (by simp)
        (fun x hx => h1' x (htk ▸ hx)) with ⟨c0, l0, he0, w0, hw0, hc0⟩
      rw [htk, he0] at he
      injection he with hce _
      rw [← hce]
      exact (plainChar_spec c0 (h2' w0 (htk ▸ hw0) c0 hc0)).1
  rw [trimJs_eq_self _ hhead hlast]
  exact (lowerStr_join ws).symm

/-- Claim C6 counterexample: the text `"hello ."` has its words
separated by single spaces, is ASCII, and contains no special-token
substring, yet decoding its encoding glues the full stop onto the word:
the result `"hello."` differs from the case-folded whitespace-normalized
input `"hello ."`. -/
theorem decode_encode_counterexample :
    encode (buildVocabFromInputText (CustomTokenizer.new defaultOpts) "hello .")
      "hello ." = .ok [2, 4, 5, 3] ∧
    decode (buildVocabFromInputText (CustomTokenizer.new defaultOpts) "hello .")
      [2, 4, 5, 3] = "hello." ∧
    ¬ ("hello." = "hello .") := by
  exact ⟨by rfl, by rfl, by decide⟩

/-- Claim C6 witness: the amended round trip evaluated on the words
`Hello world`. -/
theorem decode_encode_roundtrip_witness :
    ∃ ids,
      encode (buildVocabFromInputText (CustomTokenizer.new defaultOpts)
        (joinWords ["Hello", "world"])) (joinWords ["Hello", "world"]) = .ok ids ∧
      decode (buildVocabFromInputText (CustomTokenizer.new defaultOpts)
        (joinWords ["Hello", "world"])) ids
        = lowerStr (joinWords ["Hello", "world"]) :=
  decode_encode_roundtrip ["Hello", "world"] (by decide) (by decide)

/-! ## Lookup through a JS property assignment -/

theorem map_update_lookup_self {α β : Type} [BEq α] [LawfulBEq α]
    (m : List (α × β)) (k : α) (v : β) (h : (m.lookup k).isSome) :
    (m.map (fun p => if p.1 == k then (p.1, v) else p)).lookup k = some v := by
  induction m with
  | nil => simp [List.lookup] at h
  | cons p m ih =>
    obtain ⟨a, b⟩ := p
    rw [List.map_cons]
    by_cases hk : a = k
    · subst hk
      have hupd : (if ((a, b).1 == a) = true then ((a, b).1, v) else (a, b)) = (a, v) := by
        simp
      rw [hupd]
      simp [List.lookup]
    · have hbk : (a == k) = false := beq_false_of_ne hk
      have hka : (k == a) = false := beq_false_of_ne (fun he => hk he.symm)
      have hupd : (if ((a, b).1 == k) = true then ((a, b).1, v) else (a, b)) = (a, b) := by
        simp [hbk]
      rw [hupd]
      have h' : (m.lookup k).isSome = true := by
        simpa [List.lookup, hka] using h
      simp only [List.lookup, hka]
      exact ih h'

theorem map_update_lookup_ne {α β : Type} [BEq α] [LawfulBEq α]
    (m : List (α × β)) (k : α) (v : β) (k' : α) (h : ¬ k' = k) :
    (m.map (fun p => if p.1 == k then (p.1, v) else p)).lookup k' = m.lookup k' := by
  induction m with
  | nil => rfl
  | cons p m ih =>
    obtain ⟨a, b⟩ := p
    rw [List.map_cons]
    by_cases hik : a = k
    · subst hik
      have hupd : (if ((a, b).1 == a) = true then ((a, b).1, v) else (a, b)) = (a, v) := by
        simp
      rw [hupd]
      have hka' : (k' == a) = false := beq_false_of_ne h
      simp only [List.lookup, hka']
      exact ih
    · have hbk : (a == k) = false := beq_false_of_ne hik
      have hupd : (if ((a, b).1 == k) = true then ((a, b).1, v) else (a, b)) = (a, b) := by
        simp [hbk]
      rw [hupd]
      cases hka : k' == a with
      | true => simp only [List.lookup, hka]
      | false =>
        simp only [List.lookup, hka]
        exact ih

theorem jsSet_lookup {α β : Type} [BEq α] [LawfulBEq α]
    (m : List (α × β)) (k : α) (v : β) (k' : α) :
    (jsSet m k v).lookup k' = if (k' == k) = true then some v else m.lookup k' := by
  unfold jsSet
  cases hbe : k' == k with
  | true =>
    have hk : k' = k := eq_of_beq hbe
    subst hk
    have hrhs : (if true = true then some v else List.lookup k' m) = some v := rfl
    rw [hrhs]
    by_cases hp : (m.lookup k').isSome = true
    · rw [if_pos hp]
      exact map_update_lookup_self m k' v hp
    · rw [if_neg hp]
      have hnone : m.lookup k' = none := by
        cases h : m.lookup k'
        · rfl
        · exact absurd (by simp [h]) hp
      rw [lookup_append, hnone]
      simp [Option.orElse, lookup_singleton]
  | false =>
    have hk : ¬ k' = k := by
      intro he
      rw [he] at hbe
      simp at hbe
    have hrhs : (if false = true then some v else List.lookup k' m)
        = List.lookup k' m := rfl
    rw [hrhs]
    by_cases hp : (m.lookup k).isSome = true
    · rw [if_pos hp]
      exact map_update_lookup_ne m k v k' hk
    · rw [if_neg hp]
      rw [lookup_append]
      cases h : m.lookup k' with
      | some b => simp [Option.orElse, h]
      | none =>
        simp [Option.orElse, h, lookup_singleton, hbe]

/-! ## Claim C2: counting keeps first-seen key order and exact counts -/

theorem jsSet_keys_present {α β : Type} [BEq α] (m : List (α × β)) (k : α) (v : β)
    (h : (m.lookup k).isSome = true) :
    (jsSet m k v).map Prod.fst = m.map Prod.fst := by
  unfold jsSet
  rw [if_pos h, List.map_map]
  apply List.map_congr_left
  intro p _
  by_cases hp : (p.1 == k) = true
  · simp [Function.comp, hp]
  · simp [Function.comp, hp]

theorem jsSet_keys_absent {α β : Type} [BEq α] (m : List (α × β)) (k : α) (v : β)
    (h : m.lookup k = none) :
    (jsSet m k v).map Prod.fst = m.map Prod.fst ++ [k] := by
  rw [jsSet_fresh m k v h]
  simp

theorem bump_fold_lookup (l : List String) :
    ∀ (m : List (String × Nat)) (s : String),
      (List.foldl bumpCount m l).lookup s =
        if ((m.lookup s).isSome || l.contains s) = true
        then some ((m.lookup s).getD 0 + l.count s) else none := by
  induction l with
  | nil =>
    intro m s
    have hc : ([] : List String).contains s = false := rfl
    simp only [List.foldl_nil, hc, Bool.or_false, List.count_nil, Nat.add_zero]
    cases h : m.lookup s with
    | none => simp [h]
    | some c => simp [h]
  | cons tok rest ih =>
    intro m s
    simp only [List.foldl_cons]
    rw [ih (bumpCount m tok) s]
    by_cases hst : s = tok
    · subst hst
      have hbl : (bumpCount m s).lookup s = some ((m.lookup s).getD 0 + 1) := by
        unfold bumpCount
        rw [jsSet_lookup]
        rw [if_pos (by simp)]
      have hmem : (s :: rest).contains s = true :=
        (contains_true_iff _ _).mpr (List.mem_cons_self _ _)
      rw [hbl, hmem]
      simp only [Option.isSome_some, Bool.true_or, Bool.or_true, Option.getD_some, if_true]
      have hcnt : (s :: rest).count s = rest.count s + 1 := by
        simp [List.count_cons]
      rw [hcnt]
      congr 1
      omega
    · have hbe : (s == tok) = false := beq_false_of_ne hst
      have hbe2 : (tok == s) = false := beq_false_of_ne (fun he => hst he.symm)
      have hbl : (bumpCount m tok).lookup s = m.lookup s := by
        unfold bumpCount
        rw [jsSet_lookup, hbe]
        simp
      have hcnt : (tok :: rest).count s = rest.count s := by
        simp [List.count_cons, hbe2]
      have hcont : (tok :: rest).contains s = rest.contains s := by
        cases hr : rest.contains s with
        | true =>
          rw [contains_true_iff] at hr ⊢
          exact List.mem_cons_of_mem _ hr
        | false =>
          rw [contains_false_iff] at hr ⊢
          intro hmm
          rcases List.mem_cons.mp hmm with h | h
          · exact hst h
          · exact hr h
      rw [hbl, hcnt, hcont]

theorem dedupFirstAux_congr (l : List String) :
    ∀ (s1 s2 : List String), (∀ x, x ∈ s1 ↔ x ∈ s2) →
      dedupFirstAux l s1 = dedupFirstAux l s2 := by
  induction l with
  | nil => intro s1 s2 _; rfl
  | cons x xs ih =>
    intro s1 s2 hmem
    simp only [dedupFirstAux]
    have hc : s1.contains x = s2.contains x := by
      cases h2 : s2.contains x with
      | true =>
        rw [contains_true_iff]
        exact (hmem x).mpr ((contains_true_iff s2 x).mp h2)
      | false =>
        rw [contains_false_iff]
        exact fun hx => (contains_false_iff s2 x).mp h2 ((hmem x).mp hx)
    rw [hc]
    by_cases h2 : s2.contains x = true
    · rw [if_pos h2, if_pos h2]
      exact ih s1 s2 hmem
    · rw [if_neg h2, if_neg h2]
      rw [ih (x :: s1) (x :: s2)
        (by intro y; simp only [List.mem_cons]; rw [hmem y])]

theorem bump_fold_keys (l : List String) :
    ∀ m : List (String × Nat),
      (List.foldl bumpCount m l).map Prod.fst
        = m.map Prod.fst ++ dedupFirstAux l (m.map Prod.fst) := by
  induction l with
  | nil => intro m; simp [dedupFirstAux]
  | cons tok rest ih =>
    intro m
    simp only [List.foldl_cons, dedupFirstAux]
    by_cases hc : (m.map Prod.fst).contains tok = true
    · rw [if_pos hc]
      have hsome : (m.lookup tok).isSome = true :=
        lookup_isSome_of_mem_keys m tok ((contains_true_iff _ _).mp hc)
      have hkeys : (bumpCount m tok).map Prod.fst = m.map Prod.fst := by
        unfold bumpCount
        exact jsSet_keys_present m tok _ hsome
      rw [ih (bumpCount m tok), hkeys]
    · rw [if_neg hc]
      have hnotmem : tok ∉ m.map Prod.fst := by
        intro hmm
        exact hc ((contains_true_iff _ _).mpr hmm)
      have hnone : m.lookup tok = none := (lookup_eq_none_iff m tok).mpr hnotmem
      have hkeys : (bumpCount m tok).map Prod.fst = m.map Prod.fst ++ [tok] := by
        unfold bumpCount
        exact jsSet_keys_absent m tok _ hnone
      rw [ih (bumpCount m tok), hkeys, List.append_assoc]
      congr 1
      rw [List.singleton_append]
      congr 1
      exact dedupFirstAux_congr rest (m.map Prod.fst ++ [tok]) (tok :: m.map Prod.fst)
        (by intro y; simp [or_comm])

theorem corpus_fold_flatten (t : CustomTokenizer) (texts : List String) :
    ∀ m : List (String × Nat),
      List.foldl (fun m text => List.foldl bumpCount m (splitTextTokens t text)) m texts
        = List.foldl bumpCount m (texts.map (splitTextTokens t)).flatten := by
  induction texts with
  | nil => intro m; rfl
  | cons text rest ih =>
    intro m
    simp only [List.foldl_cons, List.map_cons, List.flatten_cons, List.foldl_append]
    exact ih (List.foldl bumpCount m (splitTextTokens t text))

theorem corpusCounts_eq_stream (t : CustomTokenizer) (texts : List String) :
    corpusCounts t texts = List.foldl bumpCount [] (corpusStream t texts) :=
  corpus_fold_flatten t texts []

theorem corpusCounts_keys (t : CustomTokenizer) (texts : List String) :
    (corpusCounts t texts).map Prod.fst = dedupFirst (corpusStream t texts) := by
  rw [corpusCounts_eq_stream, bump_fold_keys (corpusStream t texts) []]
  rfl

theorem corpusCounts_lookup (t : CustomTokenizer) (texts : List String) (s : String) :
    (corpusCounts t texts).lookup s
      = if (corpusStream t texts).contains s = true
        then some ((corpusStream t texts).count s) else none := by
  rw [corpusCounts_eq_stream, bump_fold_lookup (corpusStream t texts) [] s]
  have h0 : (([] : List (String × Nat)).lookup s) = none := rfl
  rw [h0]
  simp

theorem corpusCounts_mem_val (t : CustomTokenizer) (texts : List String)
    (p : String × Nat) (hp : p ∈ corpusCounts t texts) :
    p.2 = (corpusStream t texts).count p.1 := by
  obtain ⟨a, b⟩ := p
  have hnd : ((corpusCounts t texts).map Prod.fst).Nodup := by
    rw [corpusCounts_keys]
    exact nodup_dedupFirst _
  have hl : (corpusCounts t texts).lookup a = some b :=
    lookup_of_mem_nodup _ a b hnd hp
  rw [corpusCounts_lookup] at hl
  by_cases hc : (corpusStream t texts).contains a = true
  · rw [if_pos hc] at hl
    exact (Option.some_inj.mp hl).symm
  · rw [if_neg hc] at hl
    simp at hl

theorem mem_insertDescFreq (x : String × Nat) (ys : List (String × Nat)) (z : String × Nat) :
    z ∈ insertDescFreq x ys ↔ z = x ∨ z ∈ ys := by
  induction ys with
  | nil => simp [insertDescFreq]
  | cons y ys ih =>
    simp only [insertDescFreq]
    by_cases h : y.2 ≤ x.2
    · rw [if_pos h]
      simp only [List.mem_cons]
    · rw [if_neg h]
      simp only [List.mem_cons, ih]
      tauto

theorem mem_sortDescFreq (l : List (String × Nat)) (z : String × Nat) :
    z ∈ sortDescFreq l ↔ z ∈ l := by
  induction l with
  | nil => simp [sortDescFreq]
  | cons x xs ih =>
    simp only [sortDescFreq, mem_insertDescFreq, ih, List.mem_cons]

theorem pairwise_insertDescFreq (S : (String × Nat) → (String × Nat) → Prop)
    (x : String × Nat) (ys : List (String × Nat))
    (hys : List.Pairwise (descTie S) ys) (hx : ∀ y ∈ ys, S x y) :
    List.Pairwise (descTie S) (insertDescFreq x ys) := by
  induction ys with
  | nil => simp [insertDescFreq]
  | cons y ys ih =>
    rcases List.pairwise_cons.mp hys with ⟨hy, hys2⟩
    simp only [insertDescFreq]
    by_cases h : y.2 ≤ x.2
    · rw [if_pos h]
      refine List.pairwise_cons.mpr ⟨?_, hys⟩
      intro z hz
      rcases List.mem_cons.mp hz with hzy | hzys
      · subst hzy
        exact ⟨h, fun _ => hx z (List.mem_cons_self _ _)⟩
      · have hle : z.2 ≤ y.2 := (hy z hzys).1
        exact ⟨Nat.le_trans hle h, fun _ => hx z (List.mem_cons_of_mem _ hzys)⟩
    · rw [if_neg h]
      have hlt : x.2 < y.2 := Nat.lt_of_not_le h
      refine List.pairwise_cons.mpr
        ⟨?_, ih hys2 (fun z hz => hx z (List.mem_cons_of_mem _ hz))⟩
      intro z hz
      rcases (mem_insertDescFreq x ys z).mp hz with hzx | hzys
      · subst hzx
        exact ⟨Nat.le_of_lt hlt, fun he => absurd he (by omega)⟩
      · exact hy z hzys

theorem pairwise_sortDescFreq (S : (String × Nat) → (String × Nat) → Prop)
    (l : List (String × Nat)) (hl : List.Pairwise S l) :
    List.Pairwise (descTie S) (sortDescFreq l) := by
  induction l with
  | nil => simp [sortDescFreq]
  | cons x xs ih =>
    rcases List.pairwise_cons.mp hl with ⟨hx, hxs⟩
    simp only [sortDescFreq]
    exact pairwise_insertDescFreq S x (sortDescFreq xs) (ih hxs)
      (fun y hy => hx y ((mem_sortDescFreq xs y).mp hy))

theorem pairwise_firstIdx_dedupFirstAux (l : List String) :
    ∀ seen : List String,
      List.Pairwise (fun u w => firstIdx l u < firstIdx l w) (dedupFirstAux l seen) := by
  induction l with
  | nil => intro seen; simp [dedupFirstAux]
  | cons tok rest ih =>
    intro seen
    simp only [dedupFirstAux]
    by_cases hc : seen.contains tok = true
    · rw [if_pos hc]
      refine List.Pairwise.imp_of_mem ?_ (ih seen)
      intro u w hu hw hlt
      have hu2 := (mem_dedupFirstAux rest seen u).mp hu
      have hw2 := (mem_dedupFirstAux rest seen w).mp hw
      have hut : ¬ tok = u := fun he => hu2.2 (he ▸ (contains_true_iff seen tok).mp hc)
      have hwt : ¬ tok = w := fun he => hw2.2 (he ▸ (contains_true_iff seen tok).mp hc)
      show firstIdx (tok :: rest) u < firstIdx (tok :: rest) w
      simp only [firstIdx, if_neg hut, if_neg hwt]
      omega
    · rw [if_neg hc]
      refine List.pairwise_cons.mpr ⟨?_, ?_⟩
      · intro w hw
        have hw2 := (mem_dedupFirstAux rest (tok :: seen) w).mp hw
        have hwt : ¬ tok = w := fun he => hw2.2 (he ▸ List.mem_cons_self tok seen)
        show firstIdx (tok :: rest) tok < firstIdx (tok :: rest) w
        simp only [firstIdx, if_pos rfl, if_neg hwt, if_true]
        omega
      · refine List.Pairwise.imp_of_mem ?_ (ih (tok :: seen))
        intro u w hu hw hlt
        have hu2 := (mem_dedupFirstAux rest (tok :: seen) u).mp hu
        have hw2 := (mem_dedupFirstAux rest (tok :: seen) w).mp hw
        have hut : ¬ tok = u := fun he => hu2.2 (he ▸ List.mem_cons_self tok seen)
        have hwt : ¬ tok = w := fun he => hw2.2 (he ▸ List.mem_cons_self tok seen)
        show firstIdx (tok :: rest) u < firstIdx (tok :: rest) w
        simp only [firstIdx, if_neg hut, if_neg hwt]
        omega

theorem pairwise_counts_firstIdx (t : CustomTokenizer) (texts : List String) :
    List.Pairwise
      (fun p q => firstIdx (corpusStream t texts) p.1 < firstIdx (corpusStream t texts) q.1)
      (corpusCounts t texts) := by
  have h1 : List.Pairwise
      (fun u w => firstIdx (corpusStream t texts) u < firstIdx (corpusStream t texts) w)
      (dedupFirst (corpusStream t texts)) :=
    pairwise_firstIdx_dedupFirstAux (corpusStream t texts) []
  rw [← corpusCounts_keys t texts] at h1
  exact (List.pairwise_map
    (R := fun u w => firstIdx (corpusStream t texts) u < firstIdx (corpusStream t texts) w)
    (f := Prod.fst)).mp h1

theorem corpusStream_init (t : CustomTokenizer) (texts : List String) :
    corpusStream (initSpecialTokens t) texts = corpusStream t texts := rfl

theorem corpus_pairwise_freqOrder (t : CustomTokenizer) (texts : List String) :
    List.Pairwise (freqOrder (corpusStream t texts))
      ((sortDescFreq (corpusCounts t texts)).map Prod.fst) := by
  have h2 := pairwise_sortDescFreq
    (fun p q => firstIdx (corpusStream t texts) p.1 < firstIdx (corpusStream t texts) q.1)
    (corpusCounts t texts) (pairwise_counts_firstIdx t texts)
  rw [List.pairwise_map]
  refine List.Pairwise.imp_of_mem ?_ h2
  intro p q hp hq hpq
  have hpv : p.2 = (corpusStream t texts).count p.1 :=
    corpusCounts_mem_val t texts p ((mem_sortDescFreq _ p).mp hp)
  have hqv : q.2 = (corpusStream t texts).count q.1 :=
    corpusCounts_mem_val t texts q ((mem_sortDescFreq _ q).mp hq)
  obtain ⟨hle, htie⟩ := hpq
  constructor
  · rw [← hpv, ← hqv]
    exact hle
  · intro hce
    exact htie (by rw [hpv, hqv, hce])

/-- Claim C2: after `buildVocabFromCorpus texts` on a tokenizer whose
configured special tokens are pairwise distinct, any two non-special
vocabulary entries are ordered by aggregate occurrence count over the
corpus token stream, descending, and two tokens with equal counts keep
the relative order of their first occurrences during counting; in
particular the default tokenizer on `["a b b", "b c"]` assigns ids
b:4, a:5, c:6. -/
theorem corpus_frequency_order :
    (∀ (t : CustomTokenizer) (texts : List String) (u w : String) (i j : Nat),
        t.specialTokens.Nodup →
        u ∉ t.specialTokens →
        w ∉ t.specialTokens →
        (buildVocabFromCorpus t texts).vocab.lookup u = some i →
        (buildVocabFromCorpus t texts).vocab.lookup w = some j →
        i < j →
        freqOrder (corpusStream t texts) u w) ∧
    (buildVocabFromCorpus (CustomTokenizer.new defaultOpts) ["a b b", "b c"]).vocab.lookup "b"
        = some 4 ∧
    (buildVocabFromCorpus (CustomTokenizer.new defaultOpts) ["a b b", "b c"]).vocab.lookup "a"
        = some 5 ∧
    (buildVocabFromCorpus (CustomTokenizer.new defaultOpts) ["a b b", "b c"]).vocab.lookup "c"
        = some 6 := by
  refine ⟨?_, by rfl, by rfl, by rfl⟩
  intro t texts u w i j hnd hu hw hlu hlw hij
  rcases buildVocabFromCorpus_shape t texts hnd with ⟨added, hvoc, hsub, hnodup⟩
  rw [hvoc, withIds_append, lookup_append,
    lookup_withIds_of_not_mem 0 t.specialTokens u hu] at hlu
  rw [hvoc, withIds_append, lookup_append,
    lookup_withIds_of_not_mem 0 t.specialTokens w hw] at hlw
  simp only [Option.orElse] at hlu hlw
  rcases lookup_withIds_eq_some _ added u i hlu with ⟨pu, hpu, hgu, hiu⟩
  rcases lookup_withIds_eq_some _ added w j hlw with ⟨pw, hpw, hgw, hjw⟩
  have hplt : pu < pw := by omega
  have hpair : List.Pairwise (freqOrder (corpusStream t texts)) added := by
    have h15 := corpus_pairwise_freqOrder (initSpecialTokens t) texts
    rw [corpusStream_init] at h15
    exact List.Pairwise.sublist hsub h15
  have hget := List.pairwise_iff_get.mp hpair ⟨pu, hpu⟩ ⟨pw, hpw⟩
    (Fin.mk_lt_mk.mpr hplt)
  rw [hgu, hgw] at hget
  exact hget

/-- Claim C2 witness: the ordering applied to the equal-count tokens
`"a"` (id 5) and `"c"` (id 6) of the corpus `["a b b", "b c"]` under the
default options, where the tie is broken by first occurrence. -/
theorem corpus_frequency_order_witness :
    freqOrder (corpusStream (CustomTokenizer.new defaultOpts) ["a b b", "b c"]) "a" "c" :=
  corpus_frequency_order.1 (CustomTokenizer.new defaultOpts) ["a b b", "b c"] "a" "c" 5 6
    (by decide) (by decide) (by decide) (by rfl) (by rfl) (by decide)
